import Mathlib

/-
Verification of src/project_code/noteDetection/chromaTest2/src/PCP/FFT.cpp.

Modelling conventions, used throughout:
* Single precision float values are modelled by exact values in an abstract
  linear ordered field K; the claim level theorems instantiate K := ℝ.
* The libm calls (sin, cos, sqrt, pow, log, log10) and the constant M_PI are
  collected in a FloatOps record so that the program definitions stay
  computable; the claim level theorems instantiate it with realOps, built
  from Real.sin, Real.cos and friends.
* A C float array is modelled as a total function ℕ → K.  A store
  a[i] = v is the pointwise update upd.  Where the C code allocates a
  fresh uninitialised array whose every later read is preceded by a write,
  the model passes the all zero function.
* C int sizes, counts and selector arguments are modelled as ℕ.  Every
  routine under study rejects (or never receives) negative arguments, and
  on the nonnegative range the two agree.
* The process terminating exit(1) calls of the source are modelled by the
  error case of Except FFTError.
-/

namespace PCP

/-- Pointwise store: the effect of the C assignment p[i] = v. -/
def upd {α : Type} (p : ℕ → α) (i : ℕ) (v : α) : ℕ → α :=
  fun j => if j = i then v else p j

/-- Loop of the shape `for (i = 0; i < n; i++) p[i] = g(i, p[i]);` where the
body reads only the cell it writes (g may capture other, unmodified, data). -/
def updLoop {α : Type} (p : ℕ → α) (g : ℕ → α → α) (n : ℕ) : ℕ → α :=
  (List.range n).foldl (fun q i => upd q i (g i (q i))) p

/-- Auxiliary loop of ReverseBits:
`for (i = rev = 0; i < NumBits; i++) { rev = (rev << 1) | (index & 1); index >>= 1; }`. -/
def revGo : ℕ → ℕ → ℕ → ℕ
  | rev, _, 0 => rev
  | rev, idx, s + 1 => revGo (2 * rev + idx % 2) (idx / 2) s

/-- ReverseBits(index, NumBits) of the source. -/
def ReverseBits (index NumBits : ℕ) : ℕ := revGo 0 index NumBits

def MaxFastBits : ℕ := 16

def gFFTBitTable : List (List ℕ) :=
  (List.range MaxFastBits).map fun b => (List.range (2 ^ (b + 1))).map fun i => ReverseBits i (b + 1)

/-- FastReverseBits(i, NumBits): table lookup for NumBits ≤ 16, direct
computation otherwise. -/
def FastReverseBits (i NumBits : ℕ) : ℕ :=
  if NumBits ≤ MaxFastBits then (gFFTBitTable.getD (NumBits - 1) []).getD i 0
  else ReverseBits i NumBits

/-- IsPowerOfTwo(x) of the source: false for x < 2, otherwise tests
`x & (x - 1)`. -/
def IsPowerOfTwo (x : ℕ) : Bool :=
  if x < 2 then false
  else if x &&& (x - 1) ≠ 0 then false
  else true

/-- NumberOfBitsNeeded(PowerOfTwo): index of the lowest set bit.  The C loop
`for (i = 0;; i++) if (PowerOfTwo & (1 << i)) return i;` is unbounded; for the
power of two arguments it receives, the answer is below the argument, so the
model searches the range below PowerOfTwo.  The x < 2 exit path of the source
is unreachable from FFT (which has already validated the size) and is not
modelled. -/
def NumberOfBitsNeeded (PowerOfTwo : ℕ) : ℕ :=
  match (List.range PowerOfTwo).find? (fun i => PowerOfTwo.testBit i) with
  | some i => i
  | none => 0

/-- Table of the libm functions and M_PI used by FFT.cpp, abstracted so that
the program definitions stay computable over an abstract field. -/
structure FloatOps (K : Type) where
  pi : K
  cos : K → K
  sin : K → K
  sqrt : K → K
  cbrt : K → K
  log10 : K → K
  log : K → K

/-- Instantiation of FloatOps at the real numbers: M_PI becomes Real.pi, the
libm calls become the Mathlib functions, pow(x, 1.0f/3.0f) becomes the real
power x ^ (1/3) and log10 becomes the base 10 logarithm. -/
noncomputable def realOps : FloatOps ℝ where
  pi := Real.pi
  cos := Real.cos
  sin := Real.sin
  sqrt := Real.sqrt
  cbrt := fun x => x ^ ((1 : ℝ) / 3)
  log10 := fun x => Real.logb 10 x
  log := Real.log

/-- Pair of output buffers (RealOut, ImagOut) of a transform. -/
structure CBuf (K : Type) where
  re : ℕ → K
  im : ℕ → K

/-- Failure of the transform size precondition; the source calls exit(1). -/
inductive FFTError : Type
  | invalidSize : FFTError

deriving instance DecidableEq for FFTError

variable {K : Type} [LinearOrderedField K]

/-! The complex FFT engine, FFT(NumSamples, InverseTransform, RealIn, ImagIn,
RealOut, ImagOut) of the source, split into its three phases. -/

/-- Phase 1 of FFT: simultaneous data copy and bit reversal ordering into the
output buffers.  A NULL ImagIn is the none case and reads as 0.0. -/
def fftScatter (NumSamples NumBits : ℕ) (RealIn : ℕ → K) (ImagIn : Option (ℕ → K))
    (buf : CBuf K) : CBuf K :=
  (List.range NumSamples).foldl
    (fun b i =>
      let j := FastReverseBits i NumBits
      ⟨upd b.re j (RealIn i), upd b.im j (match ImagIn with | none => 0 | some f => f i)⟩)
    buf

/-- Body of the innermost butterfly loop of FFT.  The state carries the
buffers and the four registers (ar1, ar2, ai1, ai2) of the trigonometric
recurrence; ar0 and ai0 are recomputed each iteration exactly as in the
source. -/
def fftInnerStep (w2 : K) (blockEnd iBase : ℕ)
    (s : CBuf K × K × K × K × K) (np : ℕ) : CBuf K × K × K × K × K :=
  let buf := s.1
  let ar1 := s.2.1
  let ar2 := s.2.2.1
  let ai1 := s.2.2.2.1
  let ai2 := s.2.2.2.2
  let ar0 := w2 * ar1 - ar2
  let ai0 := w2 * ai1 - ai2
  let j := iBase + np
  let k := j + blockEnd
  let tr := ar0 * buf.re k - ai0 * buf.im k
  let ti := ar0 * buf.im k + ai0 * buf.re k
  let re1 := upd buf.re k (buf.re j - tr)
  let im1 := upd buf.im k (buf.im j - ti)
  let re2 := upd re1 j (re1 j + tr)
  let im2 := upd im1 j (im1 j + ti)
  (⟨re2, im2⟩, ar0, ar1, ai0, ai1)

/-- One pass of FFT for a fixed BlockSize: the trigonometric seeds are
computed once, then the middle loop walks the blocks (i = 0, BlockSize,
2 BlockSize, ...) and runs the inner butterfly loop on each, reseeding the
registers per block as in the source. -/
def fftPass (F : FloatOps K) (NumSamples : ℕ) (angleNum : K) (blockSize blockEnd : ℕ)
    (buf : CBuf K) : CBuf K :=
  let delta := angleNum / (blockSize : K)
  let sm2 := F.sin (-(2 * delta))
  let sm1 := F.sin (-delta)
  let cm2 := F.cos (-(2 * delta))
  let cm1 := F.cos (-delta)
  let w2 := 2 * cm1
  (List.range' 0 (NumSamples / blockSize) blockSize).foldl
    (fun b iBase => ((List.range blockEnd).foldl (fftInnerStep w2 blockEnd iBase)
      (b, cm1, cm2, sm1, sm2)).1)
    buf

/-- Phase 2 of FFT: the passes with BlockSize = 2, 4, ..., NumSamples.  The
state carries the buffers and BlockEnd, which starts at 1 and is set to
BlockSize at the end of each pass. -/
def fftPasses (F : FloatOps K) (NumSamples NumBits : ℕ) (angleNum : K) (buf : CBuf K) :
    CBuf K :=
  ((List.range NumBits).foldl
    (fun st s =>
      let blockSize := 2 ^ (s + 1)
      (fftPass F NumSamples angleNum blockSize st.2 st.1, blockSize))
    (buf, 1)).1

/-- FFT(NumSamples, InverseTransform, RealIn, ImagIn, RealOut, ImagOut).
RealOut and ImagOut are the caller buffers, taken as arguments so that cells
the routine never writes keep their prior contents; the transformed pair is
returned.  A non power of two size makes the source print and exit(1),
modelled as the error result. -/
def FFT (F : FloatOps K) (NumSamples : ℕ) (InverseTransform : Bool)
    (RealIn : ℕ → K) (ImagIn : Option (ℕ → K)) (RealOut ImagOut : ℕ → K) :
    Except FFTError (CBuf K) :=
  if IsPowerOfTwo NumSamples = true then
    let angleNum : K := if InverseTransform then -(2 * F.pi) else 2 * F.pi
    let NumBits := NumberOfBitsNeeded NumSamples
    let buf0 := fftScatter NumSamples NumBits RealIn ImagIn ⟨RealOut, ImagOut⟩
    let buf1 := fftPasses F NumSamples NumBits angleNum buf0
    if InverseTransform then
      let denom : K := (NumSamples : K)
      Except.ok ⟨updLoop buf1.re (fun _ v => v / denom) NumSamples,
                 updLoop buf1.im (fun _ v => v / denom) NumSamples⟩
    else Except.ok buf1
  else Except.error FFTError.invalidSize

/-! RealFFT and PowerSpectrum. -/

/-- Body of the recombination loop shared by RealFFT; the state is
(RealOut, ImagOut, wr, wi). -/
def realFFTStep (Half : ℕ) (wpr wpi : K)
    (s : (ℕ → K) × (ℕ → K) × K × K) (i : ℕ) : (ℕ → K) × (ℕ → K) × K × K :=
  let re := s.1
  let im := s.2.1
  let wr := s.2.2.1
  let wi := s.2.2.2
  let i3 := Half - i
  let h1r := (1 / 2 : K) * (re i + re i3)
  let h1i := (1 / 2 : K) * (im i - im i3)
  let h2r := (1 / 2 : K) * (im i + im i3)
  let h2i := -(1 / 2 : K) * (re i - re i3)
  let re1 := upd re i (h1r + wr * h2r - wi * h2i)
  let im1 := upd im i (h1i + wr * h2i + wi * h2r)
  let re2 := upd re1 i3 (h1r - wr * h2r + wi * h2i)
  let im2 := upd im1 i3 (-h1i + wr * h2i + wi * h2r)
  let wtemp := wr
  (re2, im2, wtemp * wpr - wi * wpi + wr, wi * wpr + wtemp * wpi + wi)

/-- RealFFT(NumSamples, RealIn, RealOut, ImagOut).  The packed Half sized
scratch buffers tmpReal, tmpImag hold RealIn[2 i] and RealIn[2 i + 1]; the
FFT of size Half runs into the caller buffers, then the recombination loop
for i = 1 .. Half/2 - 1 and the bin 0 special case rewrite them in place. -/
def RealFFT (F : FloatOps K) (NumSamples : ℕ) (RealIn : ℕ → K) (RealOut ImagOut : ℕ → K) :
    Except FFTError (CBuf K) :=
  let Half := NumSamples / 2
  let theta : K := F.pi / (Half : K)
  let tmpReal : ℕ → K := fun i => RealIn (2 * i)
  let tmpImag : ℕ → K := fun i => RealIn (2 * i + 1)
  match FFT F Half false tmpReal (some tmpImag) RealOut ImagOut with
  | Except.error e => Except.error e
  | Except.ok buf =>
    let wtemp := F.sin ((1 / 2 : K) * theta)
    let wpr := -2 * wtemp * wtemp
    let wpi := F.sin theta
    let st := (List.range' 1 (Half / 2 - 1)).foldl (realFFTStep Half wpr wpi)
      (buf.re, buf.im, 1 + wpr, wpi)
    let re := st.1
    let im := st.2.1
    let h1r0 := re 0
    Except.ok ⟨upd re 0 (h1r0 + im 0), upd im 0 (h1r0 - im 0)⟩

/-- Body of the recombination loop of PowerSpectrum; the half size transform
buffers buf are only read, the state is (Out, wr, wi). -/
def powerSpectrumStep (Half : ℕ) (wpr wpi : K) (buf : CBuf K)
    (s : (ℕ → K) × K × K) (i : ℕ) : (ℕ → K) × K × K :=
  let out := s.1
  let wr := s.2.1
  let wi := s.2.2
  let i3 := Half - i
  let h1r := (1 / 2 : K) * (buf.re i + buf.re i3)
  let h1i := (1 / 2 : K) * (buf.im i - buf.im i3)
  let h2r := (1 / 2 : K) * (buf.im i + buf.im i3)
  let h2i := -(1 / 2 : K) * (buf.re i - buf.re i3)
  let rt := h1r + wr * h2r - wi * h2i
  let it := h1i + wr * h2i + wi * h2r
  let out1 := upd out i (rt * rt + it * it)
  let rt2 := h1r - wr * h2r + wi * h2i
  let it2 := -h1i + wr * h2i + wi * h2r
  let out2 := upd out1 i3 (rt2 * rt2 + it2 * it2)
  let wtemp := wr
  (out2, wtemp * wpr - wi * wpi + wr, wi * wpr + wtemp * wpi + wi)

/-- PowerSpectrum(NumSamples, In, Out).  Same packing and recombination as
RealFFT, but RealOut and ImagOut are freshly allocated internal scratch
(modelled as zero, every cell read below Half having first been written by
the FFT call) and only the squared magnitudes are stored into the caller
buffer Out. -/
def PowerSpectrum (F : FloatOps K) (NumSamples : ℕ) (In : ℕ → K) (Out : ℕ → K) :
    Except FFTError (ℕ → K) :=
  let Half := NumSamples / 2
  let theta : K := F.pi / (Half : K)
  let tmpReal : ℕ → K := fun i => In (2 * i)
  let tmpImag : ℕ → K := fun i => In (2 * i + 1)
  match FFT F Half false tmpReal (some tmpImag) (fun _ => 0) (fun _ => 0) with
  | Except.error e => Except.error e
  | Except.ok buf =>
    let wtemp := F.sin ((1 / 2 : K) * theta)
    let wpr := -2 * wtemp * wtemp
    let wpi := F.sin theta
    let st := (List.range' 1 (Half / 2 - 1)).foldl (powerSpectrumStep Half wpr wpi buf)
      (Out, 1 + wpr, wpi)
    let out := st.1
    let rt0 := buf.re 0 + buf.im 0
    let it0 := buf.re 0 - buf.im 0
    let out0 := upd out 0 (rt0 * rt0 + it0 * it0)
    let rtH := buf.re (Half / 2)
    let itH := buf.im (Half / 2)
    Except.ok (upd out0 (Half / 2) (rtH * rtH + itH * itH))

/-! The window function library. -/

/-- WindowFunc(whichFunction, NumSamples, in): three sequential conditional
in place loops (Bartlett, Hamming, Hanning); any other id leaves the block
untouched. -/
def WindowFunc (F : FloatOps K) (whichFunction NumSamples : ℕ) (inB : ℕ → K) : ℕ → K :=
  let b1 :=
    if whichFunction = 1 then
      (List.range (NumSamples / 2)).foldl
        (fun p i =>
          let p1 := upd p i (p i * ((i : K) / ((NumSamples / 2 : ℕ) : K)))
          upd p1 (i + NumSamples / 2)
            (p1 (i + NumSamples / 2) * (1 - (i : K) / ((NumSamples / 2 : ℕ) : K))))
        inB
    else inB
  let b2 :=
    if whichFunction = 2 then
      updLoop b1
        (fun i v => v * ((54 / 100 : K) - (46 / 100 : K) *
          F.cos (2 * F.pi * (i : K) / (((NumSamples - 1 : ℕ)) : K))))
        NumSamples
    else b1
  if whichFunction = 3 then
    updLoop b2
      (fun i v => v * ((1 / 2 : K) - (1 / 2 : K) *
        F.cos (2 * F.pi * (i : K) / (((NumSamples - 1 : ℕ)) : K))))
      NumSamples
  else b2

/-! The pitch and frequency analysis pipeline, analysefrequencies. -/

/-- Buffer state of the block loop of analysefrequencies: the caller sample
buffer mData (read only in the source, threaded to state that it comes back
unchanged), the scratch buffers in, out, out2 and the accumulator mProcessed.
The in2 scratch of the source is allocated and freed but never used, and is
omitted. -/
structure Bufs (K : Type) where
  data : ℕ → K
  inB : ℕ → K
  outB : ℕ → K
  out2B : ℕ → K
  proc : ℕ → K

/-- One iteration of the while loop of analysefrequencies: copy the block at
start into in, apply the window function, then branch on the algorithm. -/
def analyseBlock (F : FloatOps K) (alg windowFunc mWindowSize half start : ℕ)
    (b : Bufs K) : Except FFTError (Bufs K) :=
  let inC := updLoop b.inB (fun i _ => b.data (start + i)) mWindowSize
  let inW := WindowFunc F windowFunc mWindowSize inC
  if alg = 0 then
    match PowerSpectrum F mWindowSize inW b.outB with
    | Except.error e => Except.error e
    | Except.ok out =>
      Except.ok { b with
        inB := inW
        outB := out
        proc := updLoop b.proc (fun i v => v + out i) half }
  else if alg = 1 ∨ alg = 2 ∨ alg = 3 then
    match FFT F mWindowSize false inW none b.outB b.out2B with
    | Except.error e => Except.error e
    | Except.ok f1 =>
      let inP := updLoop inW (fun i _ => f1.re i * f1.re i + f1.im i * f1.im i) mWindowSize
      let inQ := if alg = 1 then updLoop inP (fun _ v => F.sqrt v) mWindowSize else inP
      let inR := if alg = 2 ∨ alg = 3 then updLoop inQ (fun _ v => F.cbrt v) mWindowSize
        else inQ
      match FFT F mWindowSize false inR none f1.re f1.im with
      | Except.error e => Except.error e
      | Except.ok f2 =>
        Except.ok { b with
          inB := inR
          outB := f2.re
          out2B := f2.im
          proc := updLoop b.proc (fun i v => v + f2.re i) half }
  else if alg = 4 then
    match FFT F mWindowSize false inW none b.outB b.out2B with
    | Except.error e => Except.error e
    | Except.ok f1 =>
      let inL := updLoop inW (fun i _ => F.log (f1.re i * f1.re i + f1.im i * f1.im i))
        mWindowSize
      match FFT F mWindowSize true inL none f1.re f1.im with
      | Except.error e => Except.error e
      | Except.ok f2 =>
        Except.ok { b with
          inB := inL
          outB := f2.re
          out2B := f2.im
          proc := updLoop b.proc (fun i v => v + f2.re i) half }
  else Except.ok { b with inB := inW }

/-- The while loop of analysefrequencies:
`while (start + mWindowSize <= mDataLen) { ...; start += hopsize; windows++; }`.
The returned ℕ is the final value of the windows counter.  The loop advances
by hopsize each iteration; hopsize is always half = mWindowSize / 2 ≥ 16 at
the call site, and the positivity hypothesis makes the recursion terminate. -/
def analyseLoop (F : FloatOps K) (alg windowFunc mWindowSize half hopsize : ℕ)
    (hhop : 0 < hopsize) (mDataLen : ℕ) (start windows : ℕ) (b : Bufs K) :
    Except FFTError (Bufs K × ℕ) :=
  if h : start + mWindowSize ≤ mDataLen then
    match analyseBlock F alg windowFunc mWindowSize half start b with
    | Except.error e => Except.error e
    | Except.ok b2 =>
      analyseLoop F alg windowFunc mWindowSize half hopsize hhop mDataLen
        (start + hopsize) (windows + 1) b2
  else Except.ok (b, windows)
termination_by mDataLen + 1 - start
decreasing_by omega

/-- Final normalisation switch of analysefrequencies.  Algorithm 0 converts
to decibels, 1 and 2 divide by the window count, 3 additionally performs the
peak pruning (clip, subtract the time doubled copy, clip again); the returned
ℕ is mProcessedSize.  The alg = 4 branch of the source switch is unreachable
through the validated entry (alg ≤ 3), and for other values of alg the source
leaves mProcessedSize indeterminate, modelled as 0. -/
def analyseNormalize (F : FloatOps K) (alg mWindowSize windows half : ℕ) (b : Bufs K) :
    (ℕ → K) × ℕ :=
  if alg = 0 then
    (updLoop b.proc (fun _ v => 10 * F.log10 (v / (mWindowSize : K) / (windows : K))) half,
     half)
  else if alg = 1 ∨ alg = 2 then
    (updLoop b.proc (fun _ v => v / (windows : K)) half, half)
  else if alg = 3 then
    let d := updLoop b.proc (fun _ v => v / (windows : K)) half
    let co := (List.range half).foldl
      (fun (s : (ℕ → K) × (ℕ → K)) i =>
        let p := if s.1 i < 0 then upd s.1 i 0 else s.1
        (p, upd s.2 i (p i)))
      (d, b.outB)
    let p2 := updLoop co.1
      (fun i v => if i % 2 = 0 then v - co.2 (i / 2)
        else v - (co.2 (i / 2) + co.2 (i / 2 + 1)) / 2) half
    ((List.range half).foldl (fun q i => if q i < 0 then upd q i 0 else q) p2, half)
  else if alg = 4 then
    (updLoop b.proc (fun _ v => v / (windows : K)) half, half)
  else (b.proc, 0)

/-- analysefrequencies(alg, windowFunc, windowSize, mData, mDataLen,
mProcessed).  The result carries the caller sample buffer (returned
unchanged), the mProcessed buffer and the returned length.  Parameter
validation and the insufficient data check return length 0 without touching
the buffers; otherwise mProcessed is zeroed, the block loop runs, and the
final normalisation branches on the algorithm. -/
def analysefrequencies (F : FloatOps K) (alg windowFunc windowSize : ℕ)
    (mData : ℕ → K) (mDataLen : ℕ) (mProcessed : ℕ → K) :
    Except FFTError ((ℕ → K) × (ℕ → K) × ℕ) :=
  if h : 32 ≤ windowSize ∧ windowSize ≤ 65536 ∧ alg ≤ 3 ∧ windowFunc ≤ 3 then
    if mDataLen < windowSize then Except.ok (mData, mProcessed, 0)
    else
      let proc0 := updLoop mProcessed (fun _ _ => 0) windowSize
      let half := windowSize / 2
      match analyseLoop F alg windowFunc windowSize half (windowSize / 2)
          (by omega) mDataLen 0 0 ⟨mData, (fun _ => 0), (fun _ => 0), (fun _ => 0), proc0⟩ with
      | Except.error e => Except.error e
      | Except.ok (b, windows) =>
        Except.ok (b.data, (analyseNormalize F alg windowSize windows half b).1,
          (analyseNormalize F alg windowSize windows half b).2)
  else Except.ok (mData, mProcessed, 0)

/-! Shape of the FFT result: the transform fails exactly on the power of two
precondition. -/

def wseq (wpr wpi : K) : ℕ → K × K
  | 0 => (1 + wpr, wpi)
  | i + 1 =>
    let w := wseq wpr wpi i
    (w.1 * wpr - w.2 * wpi + w.1, w.2 * wpr + w.1 * wpi + w.2)

def recombVals (Half : ℕ) (wpr wpi : K) (buf : CBuf K) (i : ℕ) : K × K × K × K :=
  let w := wseq wpr wpi (i - 1)
  let wr := w.1
  let wi := w.2
  let i3 := Half - i
  let h1r := (1 / 2 : K) * (buf.re i + buf.re i3)
  let h1i := (1 / 2 : K) * (buf.im i - buf.im i3)
  let h2r := (1 / 2 : K) * (buf.im i + buf.im i3)
  let h2i := -(1 / 2 : K) * (buf.re i - buf.re i3)
  (h1r + wr * h2r - wi * h2i,
   h1i + wr * h2i + wi * h2r,
   h1r - wr * h2r + wi * h2i,
   -h1i + wr * h2i + wi * h2r)

def rfInv (Half : ℕ) (wpr wpi : K) (buf : CBuf K) (i : ℕ)
    (s : (ℕ → K) × (ℕ → K) × K × K) : Prop :=
  (s.2.2.1, s.2.2.2) = wseq wpr wpi (i - 1)
  ∧ (∀ j, 1 ≤ j → j < i →
      s.1 j = (recombVals Half wpr wpi buf j).1 ∧
      s.2.1 j = (recombVals Half wpr wpi buf j).2.1)
  ∧ (∀ j, 1 ≤ j → j < i →
      s.1 (Half - j) = (recombVals Half wpr wpi buf j).2.2.1 ∧
      s.2.1 (Half - j) = (recombVals Half wpr wpi buf j).2.2.2)
  ∧ (∀ j, (j = 0 ∨ (i ≤ j ∧ j ≤ Half - i) ∨ Half ≤ j) →
      s.1 j = buf.re j ∧ s.2.1 j = buf.im j)

def psInv (Half : ℕ) (wpr wpi : K) (buf : CBuf K) (Out0 : ℕ → K) (i : ℕ)
    (s : (ℕ → K) × K × K) : Prop :=
  (s.2.1, s.2.2) = wseq wpr wpi (i - 1)
  ∧ (∀ j, 1 ≤ j → j < i → s.1 j =
      (recombVals Half wpr wpi buf j).1 * (recombVals Half wpr wpi buf j).1 +
      (recombVals Half wpr wpi buf j).2.1 * (recombVals Half wpr wpi buf j).2.1)
  ∧ (∀ j, 1 ≤ j → j < i → s.1 (Half - j) =
      (recombVals Half wpr wpi buf j).2.2.1 * (recombVals Half wpr wpi buf j).2.2.1 +
      (recombVals Half wpr wpi buf j).2.2.2 * (recombVals Half wpr wpi buf j).2.2.2)
  ∧ (∀ j, (j = 0 ∨ (i ≤ j ∧ j ≤ Half - i) ∨ Half ≤ j) → s.1 j = Out0 j)

/-- Final contents of the Out buffer produced by PowerSpectrum, as a function
of the shared half size transform buffers and the prior Out contents. -/
def psFinal (Half : ℕ) (wpr wpi : K) (buf : CBuf K) (Out : ℕ → K) : ℕ → K :=
  upd
    (upd ((List.range' 1 (Half / 2 - 1)).foldl (powerSpectrumStep Half wpr wpi buf)
        (Out, 1 + wpr, wpi)).1 0
      ((buf.re 0 + buf.im 0) * (buf.re 0 + buf.im 0) +
       (buf.re 0 - buf.im 0) * (buf.re 0 - buf.im 0)))
    (Half / 2)
    (buf.re (Half / 2) * buf.re (Half / 2) + buf.im (Half / 2) * buf.im (Half / 2))

/-- Final contents of the caller buffers produced by RealFFT. -/
def rfFinal (Half : ℕ) (wpr wpi : K) (buf : CBuf K) : CBuf K :=
  ⟨upd ((List.range' 1 (Half / 2 - 1)).foldl (realFFTStep Half wpr wpi)
      (buf.re, buf.im, 1 + wpr, wpi)).1 0
    (((List.range' 1 (Half / 2 - 1)).foldl (realFFTStep Half wpr wpi)
      (buf.re, buf.im, 1 + wpr, wpi)).1 0 +
     ((List.range' 1 (Half / 2 - 1)).foldl (realFFTStep Half wpr wpi)
      (buf.re, buf.im, 1 + wpr, wpi)).2.1 0),
   upd ((List.range' 1 (Half / 2 - 1)).foldl (realFFTStep Half wpr wpi)
      (buf.re, buf.im, 1 + wpr, wpi)).2.1 0
    (((List.range' 1 (Half / 2 - 1)).foldl (realFFTStep Half wpr wpi)
      (buf.re, buf.im, 1 + wpr, wpi)).1 0 -
     ((List.range' 1 (Half / 2 - 1)).foldl (realFFTStep Half wpr wpi)
      (buf.re, buf.im, 1 + wpr, wpi)).2.1 0)⟩

/-- Agreement of two buffer states up to the window size on the accumulator,
with the remaining buffers equal. -/
def procAgree (w : ℕ) (b1 b2 : Bufs K) : Prop :=
  b1.data = b2.data ∧ b1.inB = b2.inB ∧ b1.outB = b2.outB ∧ b1.out2B = b2.out2B ∧
  ∀ i, i < w → b1.proc i = b2.proc i

/-! Mathematical devices for stating what the butterfly passes compute: the
unit circle point e^(i a), the complex reading of a buffer cell, and the
partial sub transforms present in the buffer between the passes. -/

/-- The unit circle point e^(i a); cex a packs (cos a, sin a), the pair the
trigonometric registers of the butterfly loop carry. -/
noncomputable def cex (a : ℝ) : ℂ := Complex.exp (a * Complex.I)

/-- Complex reading of one cell of an output buffer pair. -/
def cval (buf : CBuf ℝ) (p : ℕ) : ℂ := ⟨buf.re p, buf.im p⟩

/-- The sub transform held by block b at offset t after s of the m butterfly
stages, for logical input x and angle numerator α: the size 2 ^ s transform
with kernel cex (α t u / 2 ^ s) of the subsequence of stride 2 ^ (m - s) and
offset ReverseBits b (m - s). -/
noncomputable def subDFT (x : ℕ → ℂ) (α : ℝ) (m s b t : ℕ) : ℂ :=
  (Finset.range (2 ^ s)).sum
    (fun u => x (u * 2 ^ (m - s) + ReverseBits b (m - s)) * cex (α * t * u / 2 ^ s))

/-- Invariant of the innermost butterfly loop after t iterations on the block
at iBase, relative to the buffer contents B at block entry: the four
trigonometric registers hold cos and sin of (t - 1)δ and (t - 2)δ, the pairs
already visited hold the butterfly combinations with twiddle cex (np δ), and
every other cell still holds its entry value. -/
def innerInv (δ : ℝ) (BE iBase : ℕ) (B : CBuf ℝ) (t : ℕ)
    (st : CBuf ℝ × ℝ × ℝ × ℝ × ℝ) : Prop :=
  st.2.1 = Real.cos (((t : ℝ) - 1) * δ) ∧
  st.2.2.1 = Real.cos (((t : ℝ) - 2) * δ) ∧
  st.2.2.2.1 = Real.sin (((t : ℝ) - 1) * δ) ∧
  st.2.2.2.2 = Real.sin (((t : ℝ) - 2) * δ) ∧
  (∀ np, np < t →
    cval st.1 (iBase + np) =
      cval B (iBase + np) + cex ((np : ℝ) * δ) * cval B (iBase + np + BE) ∧
    cval st.1 (iBase + np + BE) =
      cval B (iBase + np) - cex ((np : ℝ) * δ) * cval B (iBase + np + BE)) ∧
  (∀ p, p < iBase ∨ (iBase + t ≤ p ∧ p < iBase + BE) ∨ iBase + BE + t ≤ p →
    st.1.re p = B.re p ∧ st.1.im p = B.im p)

@[simp] theorem upd_same {α : Type} (p : ℕ → α) (i : ℕ) (v : α) : upd p i v i = v := by
  simp [upd]

theorem upd_other {α : Type} (p : ℕ → α) (i : ℕ) (v : α) {j : ℕ} (h : j ≠ i) :
    upd p i v j = p j := by
  simp [upd, h]

theorem updLoop_apply {α : Type} (p : ℕ → α) (g : ℕ → α → α) (n j : ℕ) :
    updLoop p g n j = if j < n then g j (p j) else p j := by
  induction n generalizing j with
  | zero => simp [updLoop]
  | succ n ih =>
    unfold updLoop
    rw [List.range_succ, List.foldl_append]
    simp only [List.foldl_cons, List.foldl_nil]
    show upd (updLoop p g n) n (g n (updLoop p g n n)) j = _
    rcases Nat.lt_trichotomy j n with h | h | h
    · rw [upd_other _ _ _ (by omega : j ≠ n), ih]
      simp [h, Nat.lt_succ_of_lt h]
    · subst h
      rw [upd_same, ih]
      simp [Nat.lt_irrefl]
    · rw [upd_other _ _ _ (by omega : j ≠ n), ih]
      have h1 : ¬ j < n := by omega
      have h2 : ¬ j < n + 1 := by omega
      simp [h1, h2]

theorem updLoop_lt {α : Type} (p : ℕ → α) (g : ℕ → α → α) (n j : ℕ) (h : j < n) :
    updLoop p g n j = g j (p j) := by
  rw [updLoop_apply]; simp [h]

theorem updLoop_ge {α : Type} (p : ℕ → α) (g : ℕ → α → α) (n j : ℕ) (h : n ≤ j) :
    updLoop p g n j = p j := by
  rw [updLoop_apply]; simp [Nat.not_lt.mpr h]

/-- Invariant preservation along a foldl. -/
theorem foldl_inv {α β : Type} (P : α → Prop) (f : α → β → α) (l : List β) (s : α)
    (h0 : P s) (hstep : ∀ t b, b ∈ l → P t → P (f t b)) : P (l.foldl f s) := by
  induction l generalizing s with
  | nil => exact h0
  | cons a l ih =>
    exact ih (f s a) (hstep s a (by simp) h0) (fun t b hb ht => hstep t b (by simp [hb]) ht)

/-- Indexed invariant along a foldl over List.range' a cnt (step 1). -/
theorem foldl_range'_inv {α : Type} (P : ℕ → α → Prop) (f : α → ℕ → α) (a cnt : ℕ) (s : α)
    (h0 : P a s) (hstep : ∀ i t, a ≤ i → i < a + cnt → P i t → P (i + 1) (f t i)) :
    P (a + cnt) ((List.range' a cnt).foldl f s) := by
  induction cnt generalizing a s with
  | zero => exact h0
  | succ cnt ih =>
    rw [List.range'_succ, List.foldl_cons]
    have := ih (a + 1) (f s a) (hstep a s le_rfl (by omega) h0)
      (fun i t hi hi2 => hstep i t (by omega) (by omega))
    have he : a + (cnt + 1) = a + 1 + cnt := by omega
    rw [he]
    exact this

/-- Indexed invariant along a foldl over List.range n. -/
theorem foldl_range_inv {α : Type} (P : ℕ → α → Prop) (f : α → ℕ → α) (n : ℕ) (s : α)
    (h0 : P 0 s) (hstep : ∀ i t, i < n → P i t → P (i + 1) (f t i)) :
    P n ((List.range n).foldl f s) := by
  rw [List.range_eq_range']
  have := foldl_range'_inv P f 0 n s h0 (fun i t _ hi ht => hstep i t (by omega) ht)
  simpa using this

/-- Indexed invariant along a foldl over a stepped range List.range' a cnt st. -/
theorem foldl_range'_step_inv {α : Type} (P : ℕ → α → Prop) (f : α → ℕ → α)
    (st : ℕ) (a cnt : ℕ) (s : α) (h0 : P 0 s)
    (hstep : ∀ c t, c < cnt → P c t → P (c + 1) (f t (a + c * st))) :
    P cnt ((List.range' a cnt st).foldl f s) := by
  induction cnt generalizing P a s with
  | zero => exact h0
  | succ cnt ih =>
    rw [List.range'_succ, List.foldl_cons]
    have h1 : P 1 (f s a) := by
      simpa using hstep 0 s (by omega) h0
    exact ih (fun c t => P (c + 1) t) (a + st) (f s a) h1
      (fun c t hc ht => by
        have hh := hstep (c + 1) t (by omega) ht
        have he : a + (c + 1) * st = a + st + c * st := by ring
        rwa [he] at hh)

/-! The bit reversal helpers of FFT.cpp. -/

theorem revGo_acc (r idx s : ℕ) : revGo r idx s = r * 2 ^ s + revGo 0 idx s := by
  induction s generalizing r idx with
  | zero => simp [revGo]
  | succ s ih =>
    have h1 : revGo r idx (s + 1) = revGo (2 * r + idx % 2) (idx / 2) s := rfl
    have h2 : revGo 0 idx (s + 1) = revGo (idx % 2) (idx / 2) s := by
      have h0 : revGo 0 idx (s + 1) = revGo (2 * 0 + idx % 2) (idx / 2) s := rfl
      simpa using h0
    rw [h1, h2, ih (2 * r + idx % 2), ih (idx % 2)]
    ring

theorem reverseBits_succ (i b : ℕ) :
    ReverseBits i (b + 1) = i % 2 * 2 ^ b + ReverseBits (i / 2) b := by
  show revGo (2 * 0 + i % 2) (i / 2) b = _
  rw [revGo_acc]
  simp [ReverseBits]

theorem reverseBits_lt (i b : ℕ) : ReverseBits i b < 2 ^ b := by
  induction b generalizing i with
  | zero => simp [ReverseBits, revGo]
  | succ b ih =>
    rw [reverseBits_succ]
    have h1 := ih (i / 2)
    have h2 : i % 2 ≤ 1 := by omega
    have : i % 2 * 2 ^ b ≤ 2 ^ b := by
      calc i % 2 * 2 ^ b ≤ 1 * 2 ^ b := Nat.mul_le_mul_right _ h2
      _ = 2 ^ b := by ring
    have hp : 2 ^ (b + 1) = 2 ^ b + 2 ^ b := by ring
    omega

theorem reverseBits_msb (j b : ℕ) (hj : j < 2 ^ (b + 1)) :
    ReverseBits j (b + 1) = 2 * ReverseBits (j % 2 ^ b) b + j / 2 ^ b := by
  induction b generalizing j with
  | zero =>
    show ReverseBits j 1 = 2 * ReverseBits (j % 1) 0 + j / 1
    rw [reverseBits_succ]
    have hz : ∀ x, ReverseBits x 0 = 0 := fun x => rfl
    rw [hz, hz]
    have : j < 2 := by simpa using hj
    omega
  | succ b ih =>
    rw [reverseBits_succ j (b + 1), reverseBits_succ (j % 2 ^ (b + 1)) b]
    have hdiv : j / 2 < 2 ^ (b + 1) := by
      have h2 : 2 ^ (b + 1 + 1) = 2 ^ (b + 1) * 2 := by ring
      omega
    rw [ih (j / 2) hdiv]
    have e1 : j % 2 ^ (b + 1) % 2 = j % 2 := Nat.mod_mod_of_dvd j ⟨2 ^ b, by ring⟩
    have e2 : j % 2 ^ (b + 1) / 2 = j / 2 % 2 ^ b := by
      have h2 : (2 : ℕ) ^ (b + 1) = 2 * 2 ^ b := by ring
      rw [h2, Nat.mod_mul_right_div_self]
    have e3 : j / 2 / 2 ^ b = j / 2 ^ (b + 1) := by
      rw [Nat.div_div_eq_div_mul]
      congr 1
      ring
    rw [e1, e2, e3]
    ring

theorem reverseBits_reverseBits (i b : ℕ) (hi : i < 2 ^ b) :
    ReverseBits (ReverseBits i b) b = i := by
  induction b generalizing i with
  | zero =>
    have : i = 0 := by simpa using hi
    subst this
    rfl
  | succ b ih =>
    rw [reverseBits_succ i b]
    have hr : ReverseBits (i / 2) b < 2 ^ b := reverseBits_lt _ _
    have harg : i % 2 * 2 ^ b + ReverseBits (i / 2) b < 2 ^ (b + 1) := by
      have h2 : i % 2 ≤ 1 := by omega
      have : i % 2 * 2 ^ b ≤ 1 * 2 ^ b := Nat.mul_le_mul_right _ h2
      have hp : (2 : ℕ) ^ (b + 1) = 2 ^ b + 2 ^ b := by ring
      omega
    rw [reverseBits_msb _ _ harg]
    have e1 : (i % 2 * 2 ^ b + ReverseBits (i / 2) b) % 2 ^ b = ReverseBits (i / 2) b := by
      rcases Nat.lt_or_ge (i % 2) 1 with h | h
      · have : i % 2 = 0 := by omega
        simp [this, Nat.mod_eq_of_lt hr]
      · have : i % 2 = 1 := by omega
        rw [this, one_mul, Nat.add_mod_left, Nat.mod_eq_of_lt hr]
    have e2 : (i % 2 * 2 ^ b + ReverseBits (i / 2) b) / 2 ^ b = i % 2 := by
      have hpos : 0 < 2 ^ b := Nat.pos_pow_of_pos b (by omega)
      have hm : i % 2 * 2 ^ b = 2 ^ b * (i % 2) := by ring
      rw [hm, Nat.mul_add_div hpos, Nat.div_eq_of_lt hr]
      omega
    rw [e1, e2]
    have hhalf : i / 2 < 2 ^ b := by
      have h2 : (2 : ℕ) ^ (b + 1) = 2 ^ b * 2 := by ring
      omega
    rw [ih (i / 2) hhalf]
    omega

/-! The bit reversal cache.  gFFTBitTable is built lazily in the source
(InitFFT, called on first FFT use); its contents are deterministic, so the
model takes the fully built table as a pure constant.  Entry b - 1 holds the
2 ^ b values ReverseBits(i, b). -/

theorem fastReverseBits_eq (i b : ℕ) (hb : 1 ≤ b) (hi : i < 2 ^ b) :
    FastReverseBits i b = ReverseBits i b := by
  unfold FastReverseBits
  split
  · next hle =>
    have hb16 : b - 1 < MaxFastBits := by simp [MaxFastBits] at hle ⊢; omega
    have h1 : gFFTBitTable.getD (b - 1) [] =
        (List.range (2 ^ (b - 1 + 1))).map fun j => ReverseBits j (b - 1 + 1) := by
      simp only [gFFTBitTable, List.getD_eq_getElem?_getD, List.getElem?_map,
        List.getElem?_range hb16, Option.map_some']
      rfl
    have hbb : b - 1 + 1 = b := by omega
    rw [h1, hbb]
    simp [List.getD_eq_getElem?_getD, List.getElem?_map, List.getElem?_range hi]
  · rfl

/-! IsPowerOfTwo and NumberOfBitsNeeded. -/

theorem two_pow_land_pred (m : ℕ) : 2 ^ m &&& (2 ^ m - 1) = 0 := by
  apply Nat.eq_of_testBit_eq
  intro i
  rw [Nat.testBit_and, Nat.zero_testBit, Nat.testBit_two_pow_sub_one]
  rcases eq_or_ne m i with h | h
  · subst h; simp
  · rw [Nat.testBit_two_pow_of_ne h]; simp

theorem land_odd_pred (k : ℕ) : (2 * k + 1) &&& (2 * k) = 2 * k := by
  apply Nat.eq_of_testBit_eq
  intro i
  rw [Nat.testBit_and]
  cases i with
  | zero =>
    rw [Nat.testBit_zero, Nat.testBit_zero]
    have h1 : (2 * k + 1) % 2 = 1 := by omega
    have h2 : 2 * k % 2 = 0 := by omega
    simp [h1, h2]
  | succ i =>
    rw [Nat.testBit_succ, Nat.testBit_succ]
    have h1 : (2 * k + 1) / 2 = k := by omega
    have h2 : 2 * k / 2 = k := by omega
    simp [h1, h2]

theorem land_even_pred (k : ℕ) (hk : 1 ≤ k) :
    (2 * k) &&& (2 * k - 1) = 2 * (k &&& (k - 1)) := by
  apply Nat.eq_of_testBit_eq
  intro i
  rw [Nat.testBit_and]
  cases i with
  | zero =>
    rw [Nat.testBit_zero, Nat.testBit_zero]
    have h1 : 2 * k % 2 = 0 := by omega
    have h2 : 2 * (k &&& (k - 1)) % 2 = 0 := by omega
    simp [h1, h2]
  | succ i =>
    rw [Nat.testBit_succ, Nat.testBit_succ, Nat.testBit_succ]
    have h1 : 2 * k / 2 = k := by omega
    have h2 : (2 * k - 1) / 2 = k - 1 := by omega
    have h3 : 2 * (k &&& (k - 1)) / 2 = k &&& (k - 1) := by omega
    rw [h1, h2, h3, Nat.testBit_and]

theorem isPowerOfTwo_iff (x : ℕ) :
    IsPowerOfTwo x = true ↔ ∃ m, 1 ≤ m ∧ x = 2 ^ m := by
  constructor
  · intro h
    have hx : 2 ≤ x ∧ x &&& (x - 1) = 0 := by
      by_cases h1 : x < 2
      · simp [IsPowerOfTwo, h1] at h
      · by_cases h2 : x &&& (x - 1) ≠ 0
        · simp [IsPowerOfTwo, h1, h2] at h
        · exact ⟨by omega, by omega⟩
    clear h
    obtain ⟨hx2, hland⟩ := hx
    induction x using Nat.strong_induction_on with
    | _ x ih =>
      rcases Nat.even_or_odd x with ⟨k, hk⟩ | ⟨k, hk⟩
      · have hk1 : 1 ≤ k := by omega
        have heq : x &&& (x - 1) = 2 * (k &&& (k - 1)) := by
          have h2 : x = 2 * k := by omega
          subst h2
          exact land_even_pred k hk1
        rcases eq_or_ne k 1 with h1 | h1
        · exact ⟨1, by omega, by omega⟩
        · have hk2 : 2 ≤ k := by omega
          obtain ⟨m, hm1, hm2⟩ := ih k (by omega) hk2 (by omega)
          exact ⟨m + 1, by omega, by rw [pow_succ]; omega⟩
      · exfalso
        have hk1 : 1 ≤ k := by omega
        have heq : x &&& (x - 1) = 2 * k := by
          have h2 : x = 2 * k + 1 := by omega
          subst h2
          have h3 : 2 * k + 1 - 1 = 2 * k := by omega
          rw [h3]
          exact land_odd_pred k
        omega
  · rintro ⟨m, hm, rfl⟩
    have h2 : 2 ≤ 2 ^ m := by
      calc (2 : ℕ) = 2 ^ 1 := by norm_num
      _ ≤ 2 ^ m := Nat.pow_le_pow_right (by omega) hm
    have hn2 : ¬ 2 ^ m < 2 := by omega
    simp [IsPowerOfTwo, hn2, two_pow_land_pred m]

theorem find?_range'_eq_some (p : ℕ → Bool) (s n t : ℕ) (h1 : s ≤ t) (h2 : t < s + n)
    (h3 : p t = true) (h4 : ∀ j, s ≤ j → j < t → p j = false) :
    (List.range' s n).find? p = some t := by
  induction n generalizing s with
  | zero => omega
  | succ n ih =>
    rw [List.range'_succ]
    rcases eq_or_ne s t with he | hne
    · subst he
      rw [List.find?_cons_of_pos _ h3]
    · have hst : s < t := by omega
      rw [List.find?_cons_of_neg _ (by simp [h4 s le_rfl hst])]
      exact ih (s + 1) (by omega) (by omega) (fun j hj1 hj2 => h4 j (by omega) hj2)

theorem numberOfBitsNeeded_two_pow (m : ℕ) : NumberOfBitsNeeded (2 ^ m) = m := by
  unfold NumberOfBitsNeeded
  rw [List.range_eq_range',
    find?_range'_eq_some _ 0 (2 ^ m) m (by omega) (by simpa using Nat.lt_two_pow m)
      (by simp [Nat.testBit_two_pow_self])
      (fun j _ hj => by
        rw [Nat.testBit_two_pow_of_ne (by omega)])]

/-! The floating point operation table and the complex buffer pair. -/

theorem FFT_error_iff (F : FloatOps K) (n : ℕ) (inv : Bool) (ri : ℕ → K)
    (ii : Option (ℕ → K)) (r0 i0 : ℕ → K) :
    FFT F n inv ri ii r0 i0 = Except.error FFTError.invalidSize ↔
      IsPowerOfTwo n = false := by
  unfold FFT
  cases hp : IsPowerOfTwo n with
  | false => simp
  | true =>
    simp only [if_true]
    cases inv <;> simp

theorem FFT_ok_of_pow (F : FloatOps K) (n : ℕ) (inv : Bool) (ri : ℕ → K)
    (ii : Option (ℕ → K)) (r0 i0 : ℕ → K) (h : IsPowerOfTwo n = true) :
    ∃ buf, FFT F n inv ri ii r0 i0 = Except.ok buf := by
  unfold FFT
  rw [if_pos h]
  cases inv <;> exact ⟨_, rfl⟩

theorem FFT_forward_eq (F : FloatOps K) (n : ℕ) (ri : ℕ → K) (ii : Option (ℕ → K))
    (r0 i0 : ℕ → K) (h : IsPowerOfTwo n = true) :
    FFT F n false ri ii r0 i0 =
      Except.ok (fftPasses F n (NumberOfBitsNeeded n) (2 * F.pi)
        (fftScatter n (NumberOfBitsNeeded n) ri ii ⟨r0, i0⟩)) := by
  unfold FFT
  rw [if_pos h]
  rfl

theorem FFT_inverse_eq (F : FloatOps K) (n : ℕ) (ri : ℕ → K) (ii : Option (ℕ → K))
    (r0 i0 : ℕ → K) (h : IsPowerOfTwo n = true) :
    FFT F n true ri ii r0 i0 =
      Except.ok
        ⟨updLoop (fftPasses F n (NumberOfBitsNeeded n) (-(2 * F.pi))
            (fftScatter n (NumberOfBitsNeeded n) ri ii ⟨r0, i0⟩)).re
          (fun _ v => v / (n : K)) n,
         updLoop (fftPasses F n (NumberOfBitsNeeded n) (-(2 * F.pi))
            (fftScatter n (NumberOfBitsNeeded n) ri ii ⟨r0, i0⟩)).im
          (fun _ v => v / (n : K)) n⟩ := by
  unfold FFT
  rw [if_pos h]
  rfl

/-! Zero input preservation: every phase of the engine maps all zero buffers
to all zero buffers (the twiddle registers multiply the zero cells). -/

theorem fftScatter_zero (n nb : ℕ) (ri : ℕ → K) (ii : Option (ℕ → K))
    (hri : ∀ i, ri i = 0) (hii : ∀ f, ii = some f → ∀ i, f i = 0) (buf : CBuf K)
    (hbuf : ∀ q, buf.re q = 0 ∧ buf.im q = 0) :
    ∀ q, (fftScatter n nb ri ii buf).re q = 0 ∧ (fftScatter n nb ri ii buf).im q = 0 := by
  unfold fftScatter
  refine foldl_inv (fun (b : CBuf K) => ∀ q, b.re q = 0 ∧ b.im q = 0) _ _ _ hbuf ?_
  intro t i _ ht q
  have hr := fun q => (ht q).1
  have hi2 := fun q => (ht q).2
  cases him : ii with
  | none =>
    subst him
    constructor <;> simp [upd, hri, hr, hi2]
  | some f =>
    subst him
    have hf : ∀ i, f i = 0 := hii f rfl
    constructor <;> simp [upd, hri, hr, hi2, hf]

theorem fftInnerStep_zero (w2 : K) (blockEnd iBase : ℕ) (s : CBuf K × K × K × K × K)
    (hs : ∀ q, s.1.re q = 0 ∧ s.1.im q = 0) (np : ℕ) :
    ∀ q, (fftInnerStep w2 blockEnd iBase s np).1.re q = 0 ∧
      (fftInnerStep w2 blockEnd iBase s np).1.im q = 0 := by
  have hr := fun q => (hs q).1
  have hi := fun q => (hs q).2
  intro q
  constructor <;> simp [fftInnerStep, upd, hr, hi]

theorem fftInner_fold_zero (w2 : K) (blockEnd iBase : ℕ) (s : CBuf K × K × K × K × K)
    (hs : ∀ q, s.1.re q = 0 ∧ s.1.im q = 0) :
    ∀ q, ((List.range blockEnd).foldl (fftInnerStep w2 blockEnd iBase) s).1.re q = 0 ∧
      ((List.range blockEnd).foldl (fftInnerStep w2 blockEnd iBase) s).1.im q = 0 :=
  foldl_inv (fun (s2 : CBuf K × K × K × K × K) => ∀ q, s2.1.re q = 0 ∧ s2.1.im q = 0)
    _ _ s hs (fun t2 np _ ht2 => fftInnerStep_zero w2 blockEnd iBase t2 ht2 np)

theorem fftPass_zero (F : FloatOps K) (n : ℕ) (angleNum : K) (blockSize blockEnd : ℕ)
    (buf : CBuf K) (hbuf : ∀ q, buf.re q = 0 ∧ buf.im q = 0) :
    ∀ q, (fftPass F n angleNum blockSize blockEnd buf).re q = 0 ∧
      (fftPass F n angleNum blockSize blockEnd buf).im q = 0 := by
  simp only [fftPass]
  refine foldl_inv (fun (b : CBuf K) => ∀ q, b.re q = 0 ∧ b.im q = 0) _ _ _ hbuf ?_
  intro t iBase _ ht
  exact fftInner_fold_zero _ blockEnd iBase _ ht

theorem fftPasses_zero (F : FloatOps K) (n nb : ℕ) (angleNum : K) (buf : CBuf K)
    (hbuf : ∀ q, buf.re q = 0 ∧ buf.im q = 0) :
    ∀ q, (fftPasses F n nb angleNum buf).re q = 0 ∧
      (fftPasses F n nb angleNum buf).im q = 0 := by
  simp only [fftPasses]
  have := foldl_inv (fun (st : CBuf K × ℕ) => ∀ q, st.1.re q = 0 ∧ st.1.im q = 0)
    (fun st s => (fftPass F n angleNum (2 ^ (s + 1)) st.2 st.1, 2 ^ (s + 1)))
    (List.range nb) (buf, 1) hbuf
    (fun t s _ ht => fftPass_zero F n angleNum (2 ^ (s + 1)) t.2 t.1 ht)
  exact this

theorem FFT_zero (F : FloatOps K) (n : ℕ) (inv : Bool) (ri : ℕ → K)
    (ii : Option (ℕ → K)) (hri : ∀ i, ri i = 0) (hii : ∀ f, ii = some f → ∀ i, f i = 0)
    (h : IsPowerOfTwo n = true) :
    ∃ buf, FFT F n inv ri ii (fun _ => 0) (fun _ => 0) = Except.ok buf ∧
      ∀ q, buf.re q = 0 ∧ buf.im q = 0 := by
  have hsc := fftScatter_zero (K := K) n (NumberOfBitsNeeded n) ri ii hri hii
    ⟨fun _ => 0, fun _ => 0⟩ (fun q => ⟨rfl, rfl⟩)
  cases inv with
  | false =>
    refine ⟨_, FFT_forward_eq F n ri ii _ _ h, ?_⟩
    exact fftPasses_zero F n (NumberOfBitsNeeded n) (2 * F.pi) _ hsc
  | true =>
    refine ⟨_, FFT_inverse_eq F n ri ii _ _ h, ?_⟩
    intro q
    have hz := fftPasses_zero F n (NumberOfBitsNeeded n) (-(2 * F.pi)) _ hsc q
    constructor
    · dsimp only
      rw [updLoop_apply]
      rcases Nat.lt_or_ge q n with hq | hq
      · simp [hq, hz.1]
      · simp [Nat.not_lt.mpr hq, hz.1]
    · dsimp only
      rw [updLoop_apply]
      rcases Nat.lt_or_ge q n with hq | hq
      · simp [hq, hz.2]
      · simp [Nat.not_lt.mpr hq, hz.2]

/-! Result shape of PowerSpectrum and RealFFT: both run FFT at size
NumSamples / 2 and fail exactly when that size is not a power of two. -/

theorem PowerSpectrum_error_of (F : FloatOps K) (n : ℕ) (In Out : ℕ → K)
    (hp : IsPowerOfTwo (n / 2) = false) :
    PowerSpectrum F n In Out = Except.error FFTError.invalidSize := by
  have h := (FFT_error_iff F (n / 2) false (fun i => In (2 * i))
    (some fun i => In (2 * i + 1)) (fun _ => 0) (fun _ => 0)).mpr hp
  simp only [PowerSpectrum, h]

theorem PowerSpectrum_ok_of (F : FloatOps K) (n : ℕ) (In Out : ℕ → K)
    (hp : IsPowerOfTwo (n / 2) = true) :
    ∃ out, PowerSpectrum F n In Out = Except.ok out := by
  obtain ⟨buf, hbuf⟩ := FFT_ok_of_pow F (n / 2) false (fun i => In (2 * i))
    (some fun i => In (2 * i + 1)) (fun _ => 0) (fun _ => 0) hp
  simp only [PowerSpectrum, hbuf]
  exact ⟨_, rfl⟩

theorem RealFFT_error_of (F : FloatOps K) (n : ℕ) (In R0 I0 : ℕ → K)
    (hp : IsPowerOfTwo (n / 2) = false) :
    RealFFT F n In R0 I0 = Except.error FFTError.invalidSize := by
  have h := (FFT_error_iff F (n / 2) false (fun i => In (2 * i))
    (some fun i => In (2 * i + 1)) R0 I0).mpr hp
  simp only [RealFFT, h]

theorem RealFFT_ok_of (F : FloatOps K) (n : ℕ) (In R0 I0 : ℕ → K)
    (hp : IsPowerOfTwo (n / 2) = true) :
    ∃ buf, RealFFT F n In R0 I0 = Except.ok buf := by
  obtain ⟨buf, hbuf⟩ := FFT_ok_of_pow F (n / 2) false (fun i => In (2 * i))
    (some fun i => In (2 * i + 1)) R0 I0 hp
  simp only [RealFFT, hbuf]
  exact ⟨_, rfl⟩

theorem powerSpectrumStep_zero (Half : ℕ) (wpr wpi : K) (buf : CBuf K)
    (hbuf : ∀ q, buf.re q = 0 ∧ buf.im q = 0) (s : (ℕ → K) × K × K)
    (hout : ∀ q, s.1 q = 0) (i : ℕ) :
    ∀ q, (powerSpectrumStep Half wpr wpi buf s i).1 q = 0 := by
  have hr := fun q => (hbuf q).1
  have hi := fun q => (hbuf q).2
  intro q
  simp [powerSpectrumStep, upd, hr, hi, hout]

theorem PowerSpectrum_zero (F : FloatOps K) (n : ℕ) (In Out : ℕ → K)
    (hIn : ∀ i, In i = 0) (hOut : ∀ q, Out q = 0) (hp : IsPowerOfTwo (n / 2) = true) :
    ∃ out, PowerSpectrum F n In Out = Except.ok out ∧ ∀ q, out q = 0 := by
  obtain ⟨buf, hbuf, hz⟩ := FFT_zero F (n / 2) false (fun i => In (2 * i))
    (some fun i => In (2 * i + 1)) (fun i => hIn (2 * i))
    (fun f hf i => by cases hf; exact hIn (2 * i + 1)) hp
  have hr := fun q => (hz q).1
  have hi := fun q => (hz q).2
  have hst : ∀ (wpr wpi : K) (q : ℕ), ((List.range' 1 (n / 2 / 2 - 1)).foldl
      (powerSpectrumStep (n / 2) wpr wpi buf) (Out, 1 + wpr, wpi)).1 q = 0 := by
    intro wpr wpi
    refine foldl_inv (fun (s : (ℕ → K) × K × K) => ∀ q, s.1 q = 0) _ _ _ hOut ?_
    intro t i _ ht
    exact powerSpectrumStep_zero _ _ _ buf hz t ht i
  simp only [PowerSpectrum, hbuf]
  refine ⟨_, rfl, ?_⟩
  intro q
  simp [upd, hst, hr, hi]

/-! Identity branches of WindowFunc. -/

theorem windowFunc_id (F : FloatOps K) (wf n : ℕ) (x : ℕ → K)
    (h1 : wf ≠ 1) (h2 : wf ≠ 2) (h3 : wf ≠ 3) : WindowFunc F wf n x = x := by
  simp only [WindowFunc, if_neg h1, if_neg h2, if_neg h3]

/-! Characterisation of the recombination loops of RealFFT and PowerSpectrum.
wseq is the (wr, wi) recurrence, recombVals the four values the RealFFT loop
writes at bins i and Half - i. -/

theorem wseq_succ (wpr wpi : K) (k : ℕ) :
    wseq wpr wpi (k + 1) =
      ((wseq wpr wpi k).1 * wpr - (wseq wpr wpi k).2 * wpi + (wseq wpr wpi k).1,
       (wseq wpr wpi k).2 * wpr + (wseq wpr wpi k).1 * wpi + (wseq wpr wpi k).2) := rfl

theorem rfInv_step (Half q : ℕ) (hq : Half = 2 * q) (wpr wpi : K) (buf : CBuf K)
    (i : ℕ) (hi1 : 1 ≤ i) (hi2 : i < q) (s : (ℕ → K) × (ℕ → K) × K × K)
    (hs : rfInv Half wpr wpi buf i s) :
    rfInv Half wpr wpi buf (i + 1) (realFFTStep Half wpr wpi s i) := by
  obtain ⟨re, im, wr, wi⟩ := s
  obtain ⟨hw, hlo, hhi, hun⟩ := hs
  have hwr : wr = (wseq wpr wpi (i - 1)).1 := by rw [← hw]
  have hwi : wi = (wseq wpr wpi (i - 1)).2 := by rw [← hw]
  have hrei : re i = buf.re i := (hun i (by omega)).1
  have himi : im i = buf.im i := (hun i (by omega)).2
  have hrei3 : re (Half - i) = buf.re (Half - i) := (hun (Half - i) (by omega)).1
  have himi3 : im (Half - i) = buf.im (Half - i) := (hun (Half - i) (by omega)).2
  simp only [realFFTStep]
  refine ⟨?_, ?_, ?_, ?_⟩
  · show (wr * wpr - wi * wpi + wr, wi * wpr + wr * wpi + wi) = wseq wpr wpi (i + 1 - 1)
    have he : i + 1 - 1 = (i - 1) + 1 := by omega
    rw [he, wseq_succ, hwr, hwi]
  · intro j hj1 hj2
    rcases Nat.lt_or_ge j i with hj | hj
    · have hne1 : j ≠ Half - i := by omega
      have hne2 : j ≠ i := by omega
      constructor
      · show upd (upd re i _) (Half - i) _ j = _
        rw [upd_other _ _ _ hne1, upd_other _ _ _ hne2]
        exact (hlo j hj1 hj).1
      · show upd (upd im i _) (Half - i) _ j = _
        rw [upd_other _ _ _ hne1, upd_other _ _ _ hne2]
        exact (hlo j hj1 hj).2
    · have hji : j = i := by omega
      subst hji
      have hne1 : j ≠ Half - j := by omega
      constructor
      · show upd (upd re j _) (Half - j) _ j = _
        rw [upd_other _ _ _ hne1, upd_same]
        simp only [recombVals]
        rw [hrei, himi, hrei3, himi3, hwr, hwi]
      · show upd (upd im j _) (Half - j) _ j = _
        rw [upd_other _ _ _ hne1, upd_same]
        simp only [recombVals]
        rw [hrei, himi, hrei3, himi3, hwr, hwi]
  · intro j hj1 hj2
    rcases Nat.lt_or_ge j i with hj | hj
    · have hne1 : Half - j ≠ Half - i := by omega
      have hne2 : Half - j ≠ i := by omega
      constructor
      · show upd (upd re i _) (Half - i) _ (Half - j) = _
        rw [upd_other _ _ _ hne1, upd_other _ _ _ hne2]
        exact (hhi j hj1 hj).1
      · show upd (upd im i _) (Half - i) _ (Half - j) = _
        rw [upd_other _ _ _ hne1, upd_other _ _ _ hne2]
        exact (hhi j hj1 hj).2
    · have hji : j = i := by omega
      subst hji
      constructor
      · show upd (upd re j _) (Half - j) _ (Half - j) = _
        rw [upd_same]
        simp only [recombVals]
        rw [hrei, himi, hrei3, himi3, hwr, hwi]
      · show upd (upd im j _) (Half - j) _ (Half - j) = _
        rw [upd_same]
        simp only [recombVals]
        rw [hrei, himi, hrei3, himi3, hwr, hwi]
  · intro j hj
    have hne1 : j ≠ Half - i := by omega
    have hne2 : j ≠ i := by omega
    have hold : j = 0 ∨ (i ≤ j ∧ j ≤ Half - i) ∨ Half ≤ j := by omega
    constructor
    · show upd (upd re i _) (Half - i) _ j = _
      rw [upd_other _ _ _ hne1, upd_other _ _ _ hne2]
      exact (hun j hold).1
    · show upd (upd im i _) (Half - i) _ j = _
      rw [upd_other _ _ _ hne1, upd_other _ _ _ hne2]
      exact (hun j hold).2

theorem psInv_step (Half q : ℕ) (hq : Half = 2 * q) (wpr wpi : K) (buf : CBuf K)
    (Out0 : ℕ → K) (i : ℕ) (hi1 : 1 ≤ i) (hi2 : i < q) (s : (ℕ → K) × K × K)
    (hs : psInv Half wpr wpi buf Out0 i s) :
    psInv Half wpr wpi buf Out0 (i + 1) (powerSpectrumStep Half wpr wpi buf s i) := by
  obtain ⟨out, wr, wi⟩ := s
  obtain ⟨hw, hlo, hhi, hun⟩ := hs
  have hwr : wr = (wseq wpr wpi (i - 1)).1 := by rw [← hw]
  have hwi : wi = (wseq wpr wpi (i - 1)).2 := by rw [← hw]
  simp only [powerSpectrumStep]
  refine ⟨?_, ?_, ?_, ?_⟩
  · show (wr * wpr - wi * wpi + wr, wi * wpr + wr * wpi + wi) = wseq wpr wpi (i + 1 - 1)
    have he : i + 1 - 1 = (i - 1) + 1 := by omega
    rw [he, wseq_succ, hwr, hwi]
  · intro j hj1 hj2
    rcases Nat.lt_or_ge j i with hj | hj
    · have hne1 : j ≠ Half - i := by omega
      have hne2 : j ≠ i := by omega
      show upd (upd out i _) (Half - i) _ j = _
      rw [upd_other _ _ _ hne1, upd_other _ _ _ hne2]
      exact hlo j hj1 hj
    · have hji : j = i := by omega
      subst hji
      have hne1 : j ≠ Half - j := by omega
      show upd (upd out j _) (Half - j) _ j = _
      rw [upd_other _ _ _ hne1, upd_same]
      simp only [recombVals]
      rw [hwr, hwi]
  · intro j hj1 hj2
    rcases Nat.lt_or_ge j i with hj | hj
    · have hne1 : Half - j ≠ Half - i := by omega
      have hne2 : Half - j ≠ i := by omega
      show upd (upd out i _) (Half - i) _ (Half - j) = _
      rw [upd_other _ _ _ hne1, upd_other _ _ _ hne2]
      exact hhi j hj1 hj
    · have hji : j = i := by omega
      subst hji
      show upd (upd out j _) (Half - j) _ (Half - j) = _
      rw [upd_same]
      simp only [recombVals]
      rw [hwr, hwi]
  · intro j hj
    have hne1 : j ≠ Half - i := by omega
    have hne2 : j ≠ i := by omega
    have hold : j = 0 ∨ (i ≤ j ∧ j ≤ Half - i) ∨ Half ≤ j := by omega
    show upd (upd out i _) (Half - i) _ j = _
    rw [upd_other _ _ _ hne1, upd_other _ _ _ hne2]
    exact hun j hold

theorem ps_fold_char (Half q : ℕ) (hq : Half = 2 * q) (hq1 : 1 ≤ q) (wpr wpi : K)
    (buf : CBuf K) (Out : ℕ → K) :
    psInv Half wpr wpi buf Out q
      ((List.range' 1 (Half / 2 - 1)).foldl (powerSpectrumStep Half wpr wpi buf)
        (Out, 1 + wpr, wpi)) := by
  have hc : Half / 2 - 1 = q - 1 := by omega
  rw [hc]
  have h0 : psInv Half wpr wpi buf Out 1 (Out, 1 + wpr, wpi) := by
    refine ⟨rfl, ?_, ?_, ?_⟩
    · intro j hj1 hj2; omega
    · intro j hj1 hj2; omega
    · intro j _; rfl
  have hfold := foldl_range'_inv (psInv Half wpr wpi buf Out)
    (powerSpectrumStep Half wpr wpi buf) 1 (q - 1) (Out, 1 + wpr, wpi) h0
    (fun i t hi1 hi2 ht => psInv_step Half q hq wpr wpi buf Out i hi1 (by omega) t ht)
  have he : 1 + (q - 1) = q := by omega
  rwa [he] at hfold

theorem rf_fold_char (Half q : ℕ) (hq : Half = 2 * q) (hq1 : 1 ≤ q) (wpr wpi : K)
    (buf : CBuf K) :
    rfInv Half wpr wpi buf q
      ((List.range' 1 (Half / 2 - 1)).foldl (realFFTStep Half wpr wpi)
        (buf.re, buf.im, 1 + wpr, wpi)) := by
  have hc : Half / 2 - 1 = q - 1 := by omega
  rw [hc]
  have h0 : rfInv Half wpr wpi buf 1 (buf.re, buf.im, 1 + wpr, wpi) := by
    refine ⟨rfl, ?_, ?_, ?_⟩
    · intro j hj1 hj2; omega
    · intro j hj1 hj2; omega
    · intro j _; exact ⟨rfl, rfl⟩
  have hfold := foldl_range'_inv (rfInv Half wpr wpi buf)
    (realFFTStep Half wpr wpi) 1 (q - 1) (buf.re, buf.im, 1 + wpr, wpi) h0
    (fun i t hi1 hi2 ht => rfInv_step Half q hq wpr wpi buf i hi1 (by omega) t ht)
  have he : 1 + (q - 1) = q := by omega
  rwa [he] at hfold

theorem psFinal_eq_sq (Half q : ℕ) (hq : Half = 2 * q) (hq1 : 1 ≤ q) (wpr wpi : K)
    (buf : CBuf K) (Out : ℕ → K) (j : ℕ) (hj : j < Half) :
    psFinal Half wpr wpi buf Out j =
      (rfFinal Half wpr wpi buf).re j * (rfFinal Half wpr wpi buf).re j +
      (rfFinal Half wpr wpi buf).im j * (rfFinal Half wpr wpi buf).im j := by
  have hps := ps_fold_char Half q hq hq1 wpr wpi buf Out
  have hrf := rf_fold_char Half q hq hq1 wpr wpi buf
  have hhalf2 : Half / 2 = q := by omega
  unfold psFinal rfFinal
  rw [hhalf2] at hps hrf ⊢
  obtain ⟨hpw, hplo, hphi, hpun⟩ := hps
  obtain ⟨hrw, hrlo, hrhi, hrun⟩ := hrf
  simp only [CBuf.re, CBuf.im]
  rcases eq_or_ne j 0 with hj0 | hj0
  · subst hj0
    rw [upd_other _ _ _ (by omega : (0 : ℕ) ≠ q), upd_same, upd_same, upd_same]
    have h1 := (hrun 0 (by omega)).1
    have h2 := (hrun 0 (by omega)).2
    rw [h1, h2]
  · rcases eq_or_ne j q with hjq | hjq
    · rw [hjq]
      rw [upd_same, upd_other _ _ _ (by omega : q ≠ 0), upd_other _ _ _ (by omega : q ≠ 0)]
      have h1 := (hrun q (by omega)).1
      have h2 := (hrun q (by omega)).2
      rw [h1, h2]
    · rcases Nat.lt_or_ge j q with hjlt | hjge
      · rw [upd_other _ _ _ hjq, upd_other _ _ _ hj0, upd_other _ _ _ hj0,
          upd_other _ _ _ hj0]
        rw [hplo j (by omega) hjlt, (hrlo j (by omega) hjlt).1, (hrlo j (by omega) hjlt).2]
      · have hj2 : j = Half - (Half - j) := by omega
        have hj3 : 1 ≤ Half - j := by omega
        have hj4 : Half - j < q := by omega
        rw [upd_other _ _ _ hjq, upd_other _ _ _ hj0, upd_other _ _ _ hj0,
          upd_other _ _ _ hj0]
        rw [hj2, hphi (Half - j) hj3 hj4, (hrhi (Half - j) hj3 hj4).1,
          (hrhi (Half - j) hj3 hj4).2]

theorem psFinal_frame (Half q : ℕ) (hq : Half = 2 * q) (hq1 : 1 ≤ q) (wpr wpi : K)
    (buf : CBuf K) (Out : ℕ → K) (j : ℕ) (hj : Half ≤ j) :
    psFinal Half wpr wpi buf Out j = Out j := by
  have hps := ps_fold_char Half q hq hq1 wpr wpi buf Out
  have hhalf2 : Half / 2 = q := by omega
  unfold psFinal
  rw [hhalf2] at hps ⊢
  obtain ⟨hpw, hplo, hphi, hpun⟩ := hps
  have hjq : j ≠ q := by omega
  have hj0 : j ≠ 0 := by omega
  rw [upd_other _ _ _ hjq, upd_other _ _ _ hj0]
  exact hpun j (by omega)

theorem ps_realFFT_master (F : FloatOps K) (n : ℕ) (In Out : ℕ → K)
    (hp : IsPowerOfTwo (n / 2) = true) :
    ∃ out rf, PowerSpectrum F n In Out = Except.ok out ∧
      RealFFT F n In (fun _ => 0) (fun _ => 0) = Except.ok rf ∧
      (∀ j, j < n / 2 → out j = rf.re j * rf.re j + rf.im j * rf.im j) ∧
      (∀ j, n / 2 ≤ j → out j = Out j) := by
  obtain ⟨m, hm1, hm2⟩ := (isPowerOfTwo_iff (n / 2)).mp hp
  obtain ⟨q, hq, hq1⟩ : ∃ q, n / 2 = 2 * q ∧ 1 ≤ q := by
    refine ⟨2 ^ (m - 1), ?_, Nat.pos_pow_of_pos _ (by omega)⟩
    have he : 2 ^ m = 2 * 2 ^ (m - 1) := by
      conv_lhs => rw [show m = (m - 1) + 1 from by omega]
      rw [pow_succ]
      ring
    rw [hm2, he]
  obtain ⟨buf, hbuf⟩ := FFT_ok_of_pow F (n / 2) false (fun i => In (2 * i))
    (some fun i => In (2 * i + 1)) (fun _ => 0) (fun _ => 0) hp
  have hPS : PowerSpectrum F n In Out =
      Except.ok (psFinal (n / 2)
        (-2 * F.sin ((1 / 2 : K) * (F.pi / ((n / 2 : ℕ) : K))) *
          F.sin ((1 / 2 : K) * (F.pi / ((n / 2 : ℕ) : K))))
        (F.sin (F.pi / ((n / 2 : ℕ) : K))) buf Out) := by
    simp only [PowerSpectrum, hbuf, psFinal]
  have hRF : RealFFT F n In (fun _ => 0) (fun _ => 0) =
      Except.ok (rfFinal (n / 2)
        (-2 * F.sin ((1 / 2 : K) * (F.pi / ((n / 2 : ℕ) : K))) *
          F.sin ((1 / 2 : K) * (F.pi / ((n / 2 : ℕ) : K))))
        (F.sin (F.pi / ((n / 2 : ℕ) : K))) buf) := by
    simp only [RealFFT, hbuf, rfFinal]
  refine ⟨_, _, hPS, hRF, ?_, ?_⟩
  · intro j hj
    exact psFinal_eq_sq (n / 2) q hq hq1 _ _ buf Out j hj
  · intro j hj
    exact psFinal_frame (n / 2) q hq hq1 _ _ buf Out j hj

/-! Lemmas about the analysis pipeline. -/

theorem FFT_ne_error (F : FloatOps K) (n : ℕ) (inv : Bool) (h : IsPowerOfTwo n = true)
    (ri : ℕ → K) (ii : Option (ℕ → K)) (r0 i0 : ℕ → K) (e : FFTError) :
    FFT F n inv ri ii r0 i0 ≠ Except.error e := by
  obtain ⟨buf, hbuf⟩ := FFT_ok_of_pow F n inv ri ii r0 i0 h
  simp [hbuf]

theorem PowerSpectrum_ne_error (F : FloatOps K) (n : ℕ) (hp : IsPowerOfTwo (n / 2) = true)
    (In Out : ℕ → K) (e : FFTError) : PowerSpectrum F n In Out ≠ Except.error e := by
  obtain ⟨out, hout⟩ := PowerSpectrum_ok_of F n In Out hp
  simp [hout]

theorem isPowerOfTwo_half (w : ℕ) (hw : IsPowerOfTwo w = true) (h4 : 4 ≤ w) :
    IsPowerOfTwo (w / 2) = true := by
  obtain ⟨m, hm1, hm2⟩ := (isPowerOfTwo_iff w).mp hw
  have hm2' : 2 ≤ m := by
    by_contra hcon
    have hm1' : m = 1 := by omega
    rw [hm1'] at hm2
    norm_num at hm2
    omega
  apply (isPowerOfTwo_iff (w / 2)).mpr
  refine ⟨m - 1, by omega, ?_⟩
  have he : w = 2 * 2 ^ (m - 1) := by
    rw [hm2]
    conv_lhs => rw [show m = (m - 1) + 1 from by omega]
    rw [pow_succ]
    ring
  omega

theorem analyseBlock_ok (F : FloatOps K) (alg wf w half start : ℕ) (b : Bufs K)
    (hw : IsPowerOfTwo w = true) (hw2 : IsPowerOfTwo (w / 2) = true) (ha : alg ≤ 3) :
    ∃ b2, analyseBlock F alg wf w half start b = Except.ok b2 := by
  cases hab : analyseBlock F alg wf w half start b with
  | ok b2 => exact ⟨b2, rfl⟩
  | error e =>
    exfalso
    simp only [analyseBlock] at hab
    split at hab
    · split at hab
      · next heq => exact PowerSpectrum_ne_error F w hw2 _ _ _ heq
      · cases hab
    · split at hab
      · split at hab
        · next heq => exact FFT_ne_error F w false hw _ _ _ _ _ heq
        · split at hab
          · next heq => exact FFT_ne_error F w false hw _ _ _ _ _ heq
          · cases hab
      · next h1 h2 =>
        split at hab
        · next h3 => omega
        · cases hab

theorem analyseLoop_ok (F : FloatOps K) (alg wf w half hop : ℕ) (hhop : 0 < hop)
    (len : ℕ) (hw : IsPowerOfTwo w = true) (hw2 : IsPowerOfTwo (w / 2) = true)
    (ha : alg ≤ 3) (start windows : ℕ) (b : Bufs K) :
    ∃ b2 wins, analyseLoop F alg wf w half hop hhop len start windows b =
      Except.ok (b2, wins) := by
  have H : ∀ fuel start windows (b : Bufs K), len + 1 - start ≤ fuel →
      ∃ b2 wins, analyseLoop F alg wf w half hop hhop len start windows b =
        Except.ok (b2, wins) := by
    intro fuel
    induction fuel with
    | zero =>
      intro start windows b hle
      rw [analyseLoop, dif_neg (by omega)]
      exact ⟨_, _, rfl⟩
    | succ fuel ih =>
      intro start windows b hle
      rw [analyseLoop]
      by_cases hg : start + w ≤ len
      · rw [dif_pos hg]
        obtain ⟨b2, hb2⟩ := analyseBlock_ok F alg wf w half start b hw hw2 ha
        rw [hb2]
        exact ih (start + hop) (windows + 1) b2 (by omega)
      · rw [dif_neg hg]
        exact ⟨_, _, rfl⟩
  exact H (len + 1) start windows b (by omega)

theorem analyseLoop_windows_le (F : FloatOps K) (alg wf w half hop : ℕ) (hhop : 0 < hop)
    (len : ℕ) (start windows : ℕ) (b : Bufs K) (b2 : Bufs K) (wins : ℕ)
    (h : analyseLoop F alg wf w half hop hhop len start windows b = Except.ok (b2, wins)) :
    windows ≤ wins := by
  have H : ∀ fuel start windows (b : Bufs K) b2 wins, len + 1 - start ≤ fuel →
      analyseLoop F alg wf w half hop hhop len start windows b = Except.ok (b2, wins) →
      windows ≤ wins := by
    intro fuel
    induction fuel with
    | zero =>
      intro start windows b b2 wins hle hh
      rw [analyseLoop, dif_neg (by omega)] at hh
      cases hh
      omega
    | succ fuel ih =>
      intro start windows b b2 wins hle hh
      rw [analyseLoop] at hh
      by_cases hg : start + w ≤ len
      · rw [dif_pos hg] at hh
        split at hh
        · cases hh
        · have := ih (start + hop) (windows + 1) _ b2 wins (by omega) hh
          omega
      · rw [dif_neg hg] at hh
        cases hh
        omega
  exact H (len + 1) start windows b b2 wins (by omega) h

theorem analyseLoop_one_block (F : FloatOps K) (alg wf w half hop : ℕ) (hhop : 0 < hop)
    (len : ℕ) (hlen : w ≤ len) (b : Bufs K) (b2 : Bufs K) (wins : ℕ)
    (h : analyseLoop F alg wf w half hop hhop len 0 0 b = Except.ok (b2, wins)) :
    1 ≤ wins := by
  rw [analyseLoop, dif_pos (by omega)] at h
  split at h
  · cases h
  · have := analyseLoop_windows_le F alg wf w half hop hhop len (0 + hop) (0 + 1) _ b2 wins h
    omega

theorem analyseBlock_data (F : FloatOps K) (alg wf w half start : ℕ) (b b2 : Bufs K)
    (h : analyseBlock F alg wf w half start b = Except.ok b2) : b2.data = b.data := by
  simp only [analyseBlock] at h
  split at h
  · split at h
    · cases h
    · cases h
      rfl
  · split at h
    · split at h
      · cases h
      · split at h
        · cases h
        · cases h
          rfl
    · split at h
      · split at h
        · cases h
        · split at h
          · cases h
          · cases h
            rfl
      · cases h
        rfl

theorem analyseLoop_data (F : FloatOps K) (alg wf w half hop : ℕ) (hhop : 0 < hop)
    (len : ℕ) (start windows : ℕ) (b : Bufs K) (b2 : Bufs K) (wins : ℕ)
    (h : analyseLoop F alg wf w half hop hhop len start windows b = Except.ok (b2, wins)) :
    b2.data = b.data := by
  have H : ∀ fuel start windows (b : Bufs K) b2 wins, len + 1 - start ≤ fuel →
      analyseLoop F alg wf w half hop hhop len start windows b = Except.ok (b2, wins) →
      b2.data = b.data := by
    intro fuel
    induction fuel with
    | zero =>
      intro start windows b b2 wins hle hh
      rw [analyseLoop, dif_neg (by omega)] at hh
      cases hh
      rfl
    | succ fuel ih =>
      intro start windows b b2 wins hle hh
      rw [analyseLoop] at hh
      by_cases hg : start + w ≤ len
      · rw [dif_pos hg] at hh
        split at hh
        · cases hh
        · next b3 heq =>
          have h1 := ih (start + hop) (windows + 1) b3 b2 wins (by omega) hh
          have h2 := analyseBlock_data F alg wf w half start b b3 heq
          rw [h1, h2]
      · rw [dif_neg hg] at hh
        cases hh
        rfl
  exact H (len + 1) start windows b b2 wins (by omega) h

/-- Relational invariant along two foldl runs over the same list. -/
theorem foldl_rel {α β γ : Type} (R : α → β → Prop) (f : α → γ → α) (g : β → γ → β)
    (l : List γ) (s : α) (t : β) (h0 : R s t)
    (hstep : ∀ a b c, c ∈ l → R a b → R (f a c) (g b c)) :
    R (l.foldl f s) (l.foldl g t) := by
  induction l generalizing s t with
  | nil => exact h0
  | cons c l ih =>
    exact ih (f s c) (g t c) (hstep s t c (by simp) h0)
      (fun a b c2 hc2 => hstep a b c2 (by simp [hc2]))

theorem analyseBlock_congr (F : FloatOps K) (alg wf w half start : ℕ) (hhalf : half ≤ w)
    (b1 b2 c1 c2 : Bufs K) (hR : procAgree w b1 b2)
    (h1 : analyseBlock F alg wf w half start b1 = Except.ok c1)
    (h2 : analyseBlock F alg wf w half start b2 = Except.ok c2) :
    procAgree w c1 c2 := by
  obtain ⟨hd, hi, ho, ho2, hp⟩ := hR
  obtain ⟨d1, i1, o1, t1, p1⟩ := b1
  obtain ⟨d2, i2, o2, t2, p2⟩ := b2
  subst hd
  subst hi
  subst ho
  subst ho2
  have hp2 : ∀ i, i < w → p1 i = p2 i := fun i h => hp i h
  simp only [analyseBlock] at h1 h2
  split at h1
  · next halg =>
    rw [if_pos halg] at h2
    split at h1
    · cases h1
    · next out heq1 =>
      split at h2
      · next heq2 =>
        rw [heq1] at heq2
        cases heq2
      · next out2 heq2 =>
        rw [heq1] at heq2
        cases heq2
        cases h1
        cases h2
        refine ⟨rfl, rfl, rfl, rfl, ?_⟩
        intro i hiw
        dsimp only
        rw [updLoop_apply, updLoop_apply]
        by_cases hih : i < half
        · simp only [if_pos hih]
          rw [hp2 i hiw]
        · simp only [if_neg hih]
          exact hp2 i hiw
  · next halg =>
    rw [if_neg halg] at h2
    split at h1
    · next halg2 =>
      rw [if_pos halg2] at h2
      split at h1
      · cases h1
      · next f1 heq1 =>
        split at h2
        · next heq2 =>
          rw [heq1] at heq2
          cases heq2
        · next f1b heq2 =>
          rw [heq1] at heq2
          cases heq2
          split at h1
          · cases h1
          · next f2 heq3 =>
            split at h2
            · next heq4 =>
              rw [heq3] at heq4
              cases heq4
            · next f2b heq4 =>
              rw [heq3] at heq4
              cases heq4
              cases h1
              cases h2
              refine ⟨rfl, rfl, rfl, rfl, ?_⟩
              intro i hiw
              dsimp only
              rw [updLoop_apply, updLoop_apply]
              by_cases hih : i < half
              · simp only [if_pos hih]
                rw [hp2 i hiw]
              · simp only [if_neg hih]
                exact hp2 i hiw
    · next halg2 =>
      rw [if_neg halg2] at h2
      split at h1
      · next halg4 =>
        rw [if_pos halg4] at h2
        split at h1
        · cases h1
        · next f1 heq1 =>
          split at h2
          · next heq2 =>
            rw [heq1] at heq2
            cases heq2
          · next f1b heq2 =>
            rw [heq1] at heq2
            cases heq2
            split at h1
            · cases h1
            · next f2 heq3 =>
              split at h2
              · next heq4 =>
                rw [heq3] at heq4
                cases heq4
              · next f2b heq4 =>
                rw [heq3] at heq4
                cases heq4
                cases h1
                cases h2
                refine ⟨rfl, rfl, rfl, rfl, ?_⟩
                intro i hiw
                dsimp only
                rw [updLoop_apply, updLoop_apply]
                by_cases hih : i < half
                · simp only [if_pos hih]
                  rw [hp2 i hiw]
                · simp only [if_neg hih]
                  exact hp2 i hiw
      · next halg4 =>
        rw [if_neg halg4] at h2
        cases h1
        cases h2
        exact ⟨rfl, rfl, rfl, rfl, fun i hiw => hp2 i hiw⟩

theorem analyseLoop_congr (F : FloatOps K) (alg wf w half hop : ℕ) (hhop : 0 < hop)
    (len : ℕ) (hhalf : half ≤ w) (start windows : ℕ) (b1 b2 c1 c2 : Bufs K)
    (wins1 wins2 : ℕ) (hR : procAgree w b1 b2)
    (h1 : analyseLoop F alg wf w half hop hhop len start windows b1 = Except.ok (c1, wins1))
    (h2 : analyseLoop F alg wf w half hop hhop len start windows b2 = Except.ok (c2, wins2)) :
    procAgree w c1 c2 ∧ wins1 = wins2 := by
  have H : ∀ fuel start windows (b1 b2 c1 c2 : Bufs K) wins1 wins2,
      len + 1 - start ≤ fuel → procAgree w b1 b2 →
      analyseLoop F alg wf w half hop hhop len start windows b1 = Except.ok (c1, wins1) →
      analyseLoop F alg wf w half hop hhop len start windows b2 = Except.ok (c2, wins2) →
      procAgree w c1 c2 ∧ wins1 = wins2 := by
    intro fuel
    induction fuel with
    | zero =>
      intro start windows b1 b2 c1 c2 wins1 wins2 hle hRR hh1 hh2
      rw [analyseLoop, dif_neg (by omega)] at hh1 hh2
      cases hh1
      cases hh2
      exact ⟨hRR, rfl⟩
    | succ fuel ih =>
      intro start windows b1 b2 c1 c2 wins1 wins2 hle hRR hh1 hh2
      rw [analyseLoop] at hh1 hh2
      by_cases hg : start + w ≤ len
      · rw [dif_pos hg] at hh1 hh2
        split at hh1
        · cases hh1
        · next b3 heq1 =>
          split at hh2
          · cases hh2
          · next b4 heq2 =>
            have hR3 := analyseBlock_congr F alg wf w half start hhalf b1 b2 b3 b4
              hRR heq1 heq2
            exact ih (start + hop) (windows + 1) b3 b4 c1 c2 wins1 wins2 (by omega) hR3 hh1 hh2
      · rw [dif_neg hg] at hh1 hh2
        cases hh1
        cases hh2
        exact ⟨hRR, rfl⟩
  exact H (len + 1) start windows b1 b2 c1 c2 wins1 wins2 (by omega) hR h1 h2

theorem clip_fold_apply (p : ℕ → K) (n j : ℕ) :
    ((List.range n).foldl (fun (q : ℕ → K) i => if q i < 0 then upd q i 0 else q) p) j =
      if j < n then (if p j < 0 then 0 else p j) else p j := by
  have hfe : (fun (q : ℕ → K) i => if q i < 0 then upd q i 0 else q) =
      (fun (q : ℕ → K) i => upd q i (if q i < 0 then (0 : K) else q i)) := by
    funext q i
    by_cases h : q i < 0
    · simp only [if_pos h]
    · simp only [if_neg h]
      funext j2
      by_cases hj2 : j2 = i
      · subst hj2
        rw [upd_same]
      · rw [upd_other _ _ _ hj2]
  rw [hfe]
  exact updLoop_apply p (fun i v => if v < 0 then 0 else v) n j

theorem isPowerOfTwo_iff2 (x : ℕ) :
    IsPowerOfTwo x = true ↔ (2 ≤ x ∧ ∃ m, x = 2 ^ m) := by
  rw [isPowerOfTwo_iff]
  constructor
  · rintro ⟨m, hm1, rfl⟩
    refine ⟨?_, m, rfl⟩
    calc (2 : ℕ) = 2 ^ 1 := by norm_num
    _ ≤ 2 ^ m := Nat.pow_le_pow_right (by omega) hm1
  · rintro ⟨hx, m, rfl⟩
    refine ⟨m, ?_, rfl⟩
    by_contra hcon
    have hm0 : m = 0 := by omega
    rw [hm0] at hx
    norm_num at hx

theorem analysefrequencies_valid_eq (F : FloatOps K) (alg wf w : ℕ) (data : ℕ → K)
    (len : ℕ) (init : ℕ → K)
    (hv : 32 ≤ w ∧ w ≤ 65536 ∧ alg ≤ 3 ∧ wf ≤ 3) (hlen : ¬ len < w)
    (hhop : 0 < w / 2) (b2 : Bufs K) (wins : ℕ)
    (hloop : analyseLoop F alg wf w (w / 2) (w / 2) hhop len 0 0
      ⟨data, (fun _ => 0), (fun _ => 0), (fun _ => 0), updLoop init (fun _ _ => 0) w⟩ =
      Except.ok (b2, wins)) :
    analysefrequencies F alg wf w data len init =
      Except.ok (b2.data, (analyseNormalize F alg w wins (w / 2) b2).1,
        (analyseNormalize F alg w wins (w / 2) b2).2) := by
  simp only [analysefrequencies]
  rw [dif_pos hv, if_neg hlen, hloop]

theorem analyseNormalize_size (F : FloatOps K) (alg w wins half : ℕ) (b : Bufs K)
    (ha : alg ≤ 3) : (analyseNormalize F alg w wins half b).2 = half := by
  interval_cases alg <;> simp [analyseNormalize]

theorem analyseNormalize_congr (F : FloatOps K) (alg w wins half : ℕ) (b1 b2 : Bufs K)
    (houtB : b1.outB = b2.outB) (hproc : ∀ i, i < half → b1.proc i = b2.proc i) :
    ∀ i, i < half → (analyseNormalize F alg w wins half b1).1 i =
      (analyseNormalize F alg w wins half b2).1 i := by
  intro i hi
  simp only [analyseNormalize]
  split
  · dsimp only
    rw [updLoop_lt _ _ _ _ hi, updLoop_lt _ _ _ _ hi, hproc i hi]
  · split
    · dsimp only
      rw [updLoop_lt _ _ _ _ hi, updLoop_lt _ _ _ _ hi, hproc i hi]
    · split
      · dsimp only
        have hd : ∀ j, j < half →
            updLoop b1.proc (fun _ v => v / (wins : K)) half j =
            updLoop b2.proc (fun _ v => v / (wins : K)) half j := by
          intro j hj
          rw [updLoop_lt _ _ _ _ hj, updLoop_lt _ _ _ _ hj, hproc j hj]
        have hco : (∀ j, j < half →
            ((List.range half).foldl
              (fun (s : (ℕ → K) × (ℕ → K)) i2 =>
                let p := if s.1 i2 < 0 then upd s.1 i2 0 else s.1
                (p, upd s.2 i2 (p i2)))
              (updLoop b1.proc (fun _ v => v / (wins : K)) half, b1.outB)).1 j =
            ((List.range half).foldl
              (fun (s : (ℕ → K) × (ℕ → K)) i2 =>
                let p := if s.1 i2 < 0 then upd s.1 i2 0 else s.1
                (p, upd s.2 i2 (p i2)))
              (updLoop b2.proc (fun _ v => v / (wins : K)) half, b2.outB)).1 j) ∧
            ((List.range half).foldl
              (fun (s : (ℕ → K) × (ℕ → K)) i2 =>
                let p := if s.1 i2 < 0 then upd s.1 i2 0 else s.1
                (p, upd s.2 i2 (p i2)))
              (updLoop b1.proc (fun _ v => v / (wins : K)) half, b1.outB)).2 =
            ((List.range half).foldl
              (fun (s : (ℕ → K) × (ℕ → K)) i2 =>
                let p := if s.1 i2 < 0 then upd s.1 i2 0 else s.1
                (p, upd s.2 i2 (p i2)))
              (updLoop b2.proc (fun _ v => v / (wins : K)) half, b2.outB)).2 := by
          refine foldl_rel
            (fun (s t : (ℕ → K) × (ℕ → K)) =>
              (∀ j, j < half → s.1 j = t.1 j) ∧ s.2 = t.2) _ _ _ _ _
            ⟨hd, houtB⟩ ?_
          intro a b c hc hab
          have hcl : c < half := List.mem_range.mp hc
          obtain ⟨hab1, hab2⟩ := hab
          constructor
          · intro j hj
            dsimp only
            by_cases hcc : a.1 c < 0
            · rw [if_pos hcc, if_pos (by rw [← hab1 c hcl]; exact hcc)]
              by_cases hjc : j = c
              · subst hjc
                rw [upd_same, upd_same]
              · rw [upd_other _ _ _ hjc, upd_other _ _ _ hjc]
                exact hab1 j hj
            · rw [if_neg hcc, if_neg (by rw [← hab1 c hcl]; exact hcc)]
              exact hab1 j hj
          · dsimp only
            by_cases hcc : a.1 c < 0
            · rw [if_pos hcc, if_pos (by rw [← hab1 c hcl]; exact hcc), upd_same, upd_same,
                hab2]
            · rw [if_neg hcc, if_neg (by rw [← hab1 c hcl]; exact hcc), hab2, hab1 c hcl]
        obtain ⟨hco1, hco2⟩ := hco
        rw [clip_fold_apply, clip_fold_apply, if_pos hi, if_pos hi]
        have hp2 : ∀ j, j < half →
            updLoop ((List.range half).foldl
              (fun (s : (ℕ → K) × (ℕ → K)) i2 =>
                let p := if s.1 i2 < 0 then upd s.1 i2 0 else s.1
                (p, upd s.2 i2 (p i2)))
              (updLoop b1.proc (fun _ v => v / (wins : K)) half, b1.outB)).1
              (fun i2 v => if i2 % 2 = 0 then v - ((List.range half).foldl
                (fun (s : (ℕ → K) × (ℕ → K)) i3 =>
                  let p := if s.1 i3 < 0 then upd s.1 i3 0 else s.1
                  (p, upd s.2 i3 (p i3)))
                (updLoop b1.proc (fun _ v => v / (wins : K)) half, b1.outB)).2 (i2 / 2)
                else v - (((List.range half).foldl
                (fun (s : (ℕ → K) × (ℕ → K)) i3 =>
                  let p := if s.1 i3 < 0 then upd s.1 i3 0 else s.1
                  (p, upd s.2 i3 (p i3)))
                (updLoop b1.proc (fun _ v => v / (wins : K)) half, b1.outB)).2 (i2 / 2) +
                ((List.range half).foldl
                (fun (s : (ℕ → K) × (ℕ → K)) i3 =>
                  let p := if s.1 i3 < 0 then upd s.1 i3 0 else s.1
                  (p, upd s.2 i3 (p i3)))
                (updLoop b1.proc (fun _ v => v / (wins : K)) half, b1.outB)).2 (i2 / 2 + 1)) / 2)
              half j =
            updLoop ((List.range half).foldl
              (fun (s : (ℕ → K) × (ℕ → K)) i2 =>
                let p := if s.1 i2 < 0 then upd s.1 i2 0 else s.1
                (p, upd s.2 i2 (p i2)))
              (updLoop b2.proc (fun _ v => v / (wins : K)) half, b2.outB)).1
              (fun i2 v => if i2 % 2 = 0 then v - ((List.range half).foldl
                (fun (s : (ℕ → K) × (ℕ → K)) i3 =>
                  let p := if s.1 i3 < 0 then upd s.1 i3 0 else s.1
                  (p, upd s.2 i3 (p i3)))
                (updLoop b2.proc (fun _ v => v / (wins : K)) half, b2.outB)).2 (i2 / 2)
                else v - (((List.range half).foldl
                (fun (s : (ℕ → K) × (ℕ → K)) i3 =>
                  let p := if s.1 i3 < 0 then upd s.1 i3 0 else s.1
                  (p, upd s.2 i3 (p i3)))
                (updLoop b2.proc (fun _ v => v / (wins : K)) half, b2.outB)).2 (i2 / 2) +
                ((List.range half).foldl
                (fun (s : (ℕ → K) × (ℕ → K)) i3 =>
                  let p := if s.1 i3 < 0 then upd s.1 i3 0 else s.1
                  (p, upd s.2 i3 (p i3)))
                (updLoop b2.proc (fun _ v => v / (wins : K)) half, b2.outB)).2 (i2 / 2 + 1)) / 2)
              half j := by
          intro j hj
          rw [updLoop_lt _ _ _ _ hj, updLoop_lt _ _ _ _ hj, hco1 j hj, hco2]
        rw [hp2 i hi]
      · split
        · dsimp only
          rw [updLoop_lt _ _ _ _ hi, updLoop_lt _ _ _ _ hi, hproc i hi]
        · dsimp only
          exact hproc i hi

/-- Claim C4: for every size that is below 2 or not a power of two, the low
level transform fft fails on the precondition (the exit(1) of the source,
modelled as the InvalidTransformSize error) and produces no output; for every
power of two size at least 2 it does not fail and produces a transformed
buffer pair. -/
theorem claim_C4_fft_fails_iff_bad_size (n : ℕ) (inv : Bool) (ri : ℕ → ℝ)
    (ii : Option (ℕ → ℝ)) (r0 i0 : ℕ → ℝ) :
    (FFT realOps n inv ri ii r0 i0 = Except.error FFTError.invalidSize ↔
      ¬ (2 ≤ n ∧ ∃ m, n = 2 ^ m)) ∧
    ((2 ≤ n ∧ ∃ m, n = 2 ^ m) → ∃ buf, FFT realOps n inv ri ii r0 i0 = Except.ok buf) := by
  constructor
  · rw [FFT_error_iff]
    rw [← isPowerOfTwo_iff2]
    constructor
    · intro h
      rw [h]
      simp
    · intro h
      cases hb : IsPowerOfTwo n with
      | false => rfl
      | true => exact absurd hb h
  · intro h
    exact FFT_ok_of_pow realOps n inv ri ii r0 i0 ((isPowerOfTwo_iff2 n).mpr h)

/-- Claim C7: windowFunction with id 0 (rectangular), and more generally with
any id outside 1, 2, 3, leaves the block unchanged: the source silently does
nothing for those ids. -/
theorem claim_C7_windowFunc_id (wf n : ℕ) (x : ℕ → ℝ)
    (h : wf = 0 ∨ (wf ≠ 1 ∧ wf ≠ 2 ∧ wf ≠ 3)) : WindowFunc realOps wf n x = x := by
  rcases h with h | ⟨h1, h2, h3⟩
  · subst h
    exact windowFunc_id realOps 0 n x (by omega) (by omega) (by omega)
  · exact windowFunc_id realOps wf n x h1 h2 h3

/-- Witness for claim C7 at id 0 on a concrete block. -/
theorem claim_C7_witness :
    WindowFunc realOps 0 8 (fun _ => (0 : ℝ)) = (fun _ => (0 : ℝ)) :=
  claim_C7_windowFunc_id 0 8 (fun _ => (0 : ℝ)) (Or.inl rfl)

/-- Claim C10: whenever the validation of analysefrequencies passes (in
particular mDataLen at least windowSize), the framing loop counts at least
one block, and both divisors of the final normalisation (windows, and
windowSize for algorithm 0) are nonzero in the field. -/
theorem claim_C10_at_least_one_block (alg wf w len : ℕ) (hhop : 0 < w / 2)
    (h32 : 32 ≤ w) (hlen : w ≤ len) (b : Bufs ℝ) (b2 : Bufs ℝ) (wins : ℕ)
    (h : analyseLoop realOps alg wf w (w / 2) (w / 2) hhop len 0 0 b =
      Except.ok (b2, wins)) :
    1 ≤ wins ∧ ((w : ℝ) ≠ 0 ∧ (wins : ℝ) ≠ 0) := by
  have h1 : 1 ≤ wins :=
    analyseLoop_one_block realOps alg wf w (w / 2) (w / 2) hhop len hlen b b2 wins h
  refine ⟨h1, ?_, ?_⟩
  · exact_mod_cast (by omega : w ≠ 0)
  · exact_mod_cast (by omega : wins ≠ 0)

/-- Witness for claim C10: a concrete run of the loop that returns
successfully with a positive window count. -/
theorem claim_C10_witness :
    ∃ (b2 : Bufs ℝ) (wins : ℕ),
      analyseLoop realOps 0 0 32 (32 / 2) (32 / 2) (by norm_num) 32 0 0
        ⟨(fun _ => 0), (fun _ => 0), (fun _ => 0), (fun _ => 0), (fun _ => 0)⟩ =
        Except.ok (b2, wins) ∧ 1 ≤ wins := by
  obtain ⟨b2, wins, hloop⟩ := analyseLoop_ok realOps 0 0 32 (32 / 2) (32 / 2)
    (by norm_num) 32 (by decide) (by decide) (by norm_num) 0 0
    ⟨(fun _ => 0), (fun _ => 0), (fun _ => 0), (fun _ => 0), (fun _ => 0)⟩
  exact ⟨b2, wins, hloop,
    (claim_C10_at_least_one_block 0 0 32 32 (by norm_num) (by norm_num) (by norm_num)
      _ b2 wins hloop).1⟩

/-- Claim C9: analysefrequencies never modifies the caller sample buffer:
the model threads mData through every loop state and the returned buffer is
the argument itself (the source takes it as const float pointer and no
statement stores through it; each block is copied into the internal in
buffer before windowing and transforms). -/
theorem claim_C9_samples_unchanged (alg wf w : ℕ) (data : ℕ → ℝ) (len : ℕ)
    (init : ℕ → ℝ) (res : (ℕ → ℝ) × (ℕ → ℝ) × ℕ)
    (h : analysefrequencies realOps alg wf w data len init = Except.ok res) :
    res.1 = data := by
  simp only [analysefrequencies] at h
  split at h
  · split at h
    · cases h
      rfl
    · split at h
      · cases h
      · next b2 wins heq =>
        cases h
        have hd := analyseLoop_data realOps alg wf w (w / 2) (w / 2) (by omega) len 0 0
          _ b2 wins heq
        exact hd
  · cases h
    rfl

/-- Witness for claim C9: a concrete invocation (rejected parameters return
the untouched buffers). -/
theorem claim_C9_witness :
    ((fun _ : ℕ => (0 : ℝ)), (fun _ : ℕ => (0 : ℝ)), (0 : ℕ)).1 = (fun _ : ℕ => (0 : ℝ)) :=
  claim_C9_samples_unchanged 0 0 16 (fun _ => 0) 16 (fun _ => 0)
    ((fun _ => 0), (fun _ => 0), 0)
    (by simp only [analysefrequencies]; rw [dif_neg (by norm_num)])

/-- Claim C5: for every valid input with algorithm 3 (Enhanced
Autocorrelation), every value of the returned curve is nonnegative: the final
clip of the peak pruning step removes every negative value. -/
theorem claim_C5_enhancedAC_nonneg (wf w : ℕ) (data : ℕ → ℝ) (len : ℕ) (init : ℕ → ℝ)
    (h32 : 32 ≤ w) (h65 : w ≤ 65536) (hwf : wf ≤ 3) (hlen : w ≤ len)
    (hp : ∃ m, 1 ≤ m ∧ w = 2 ^ m) :
    ∃ curve, analysefrequencies realOps 3 wf w data len init =
        Except.ok (data, curve, w / 2) ∧
      ∀ i, i < w / 2 → 0 ≤ curve i := by
  have hpw : IsPowerOfTwo w = true := (isPowerOfTwo_iff w).mpr hp
  have hw2 : IsPowerOfTwo (w / 2) = true := isPowerOfTwo_half w hpw (by omega)
  have hhop : 0 < w / 2 := by omega
  obtain ⟨b2, wins, hloop⟩ := analyseLoop_ok realOps 3 wf w (w / 2) (w / 2) hhop
    len hpw hw2 (by omega) 0 0
    ⟨data, (fun _ => 0), (fun _ => 0), (fun _ => 0), updLoop init (fun _ _ => 0) w⟩
  have hred := analysefrequencies_valid_eq realOps 3 wf w data len init
    ⟨h32, h65, by omega, hwf⟩ (by omega) hhop b2 wins hloop
  have hdata : b2.data = data :=
    analyseLoop_data realOps 3 wf w (w / 2) (w / 2) hhop len 0 0 _ b2 wins hloop
  rw [hdata] at hred
  have hsize : (analyseNormalize realOps 3 w wins (w / 2) b2).2 = w / 2 :=
    analyseNormalize_size realOps 3 w wins (w / 2) b2 (by omega)
  rw [hsize] at hred
  refine ⟨(analyseNormalize realOps 3 w wins (w / 2) b2).1, hred, ?_⟩
  intro i hi
  simp only [analyseNormalize]
  norm_num
  rw [clip_fold_apply, if_pos hi]
  split
  · exact le_rfl
  · next h => exact le_of_not_lt h

/-- Witness for claim C5 on a concrete valid input. -/
theorem claim_C5_witness :
    ∃ curve, analysefrequencies realOps 3 0 32 (fun _ => (0 : ℝ)) 32 (fun _ => (0 : ℝ)) =
        Except.ok ((fun _ => (0 : ℝ)), curve, 32 / 2) ∧
      ∀ i, i < 32 / 2 → 0 ≤ curve i :=
  claim_C5_enhancedAC_nonneg 0 32 (fun _ => 0) 32 (fun _ => 0) (by norm_num) (by norm_num)
    (by norm_num) (by norm_num) ⟨5, by norm_num⟩

/-- Claim C3 (amended): analysefrequencies returns length 0 leaving the
buffers untouched exactly when a parameter is invalid (windowSize outside
[32, 65536], algorithm above 3, window function above 3, or mDataLen below
windowSize): on every valid parameter combination the call never returns
length 0 - it returns length windowSize/2, or aborts fatally in the FFT
engine when the transform size handed to it is not a power of two, a case
the validation does not rule out (algorithm 1 with windowSize 33, see the
counterexample).  When windowSize is moreover a power of two the success
case is guaranteed for every algorithm: length windowSize/2, with the first
windowSize/2 cells of the curve filled with values determined by the inputs
alone (independent of the prior buffer contents). -/
theorem claim_C3_validation (alg wf w : ℕ) (data : ℕ → ℝ) (len : ℕ) :
    (∀ init, ¬ (32 ≤ w ∧ w ≤ 65536 ∧ alg ≤ 3 ∧ wf ≤ 3 ∧ w ≤ len) →
      analysefrequencies realOps alg wf w data len init = Except.ok (data, init, 0)) ∧
    ((32 ≤ w ∧ w ≤ 65536 ∧ alg ≤ 3 ∧ wf ≤ 3 ∧ w ≤ len) → (∃ m, 1 ≤ m ∧ w = 2 ^ m) →
      ∀ init1 init2 : ℕ → ℝ, ∃ c1 c2,
        analysefrequencies realOps alg wf w data len init1 = Except.ok (data, c1, w / 2) ∧
        analysefrequencies realOps alg wf w data len init2 = Except.ok (data, c2, w / 2) ∧
        ∀ i, i < w / 2 → c1 i = c2 i) ∧
    ((32 ≤ w ∧ w ≤ 65536 ∧ alg ≤ 3 ∧ wf ≤ 3 ∧ w ≤ len) → ∀ init : ℕ → ℝ,
      analysefrequencies realOps alg wf w data len init =
          Except.error FFTError.invalidSize ∨
      ∃ c, analysefrequencies realOps alg wf w data len init =
          Except.ok (data, c, w / 2)) := by
  refine ⟨?_, ?_, ?_⟩
  · intro init hninv
    by_cases hv : 32 ≤ w ∧ w ≤ 65536 ∧ alg ≤ 3 ∧ wf ≤ 3
    · have hlen : len < w := by
        by_contra hc
        exact hninv ⟨hv.1, hv.2.1, hv.2.2.1, hv.2.2.2, by omega⟩
      simp only [analysefrequencies]
      rw [dif_pos hv, if_pos hlen]
    · simp only [analysefrequencies]
      rw [dif_neg hv]
  · intro hv hp init1 init2
    obtain ⟨h32, h65, ha, hwf, hlen⟩ := hv
    have hpw : IsPowerOfTwo w = true := (isPowerOfTwo_iff w).mpr hp
    have hw2 : IsPowerOfTwo (w / 2) = true := isPowerOfTwo_half w hpw (by omega)
    have hhop : 0 < w / 2 := by omega
    obtain ⟨b1, wins1, hloop1⟩ := analyseLoop_ok realOps alg wf w (w / 2) (w / 2) hhop
      len hpw hw2 ha 0 0
      ⟨data, (fun _ => 0), (fun _ => 0), (fun _ => 0), updLoop init1 (fun _ _ => 0) w⟩
    obtain ⟨b2, wins2, hloop2⟩ := analyseLoop_ok realOps alg wf w (w / 2) (w / 2) hhop
      len hpw hw2 ha 0 0
      ⟨data, (fun _ => 0), (fun _ => 0), (fun _ => 0), updLoop init2 (fun _ _ => 0) w⟩
    have hred1 := analysefrequencies_valid_eq realOps alg wf w data len init1
      ⟨h32, h65, ha, hwf⟩ (by omega) hhop b1 wins1 hloop1
    have hred2 := analysefrequencies_valid_eq realOps alg wf w data len init2
      ⟨h32, h65, ha, hwf⟩ (by omega) hhop b2 wins2 hloop2
    have hdata1 : b1.data = data :=
      analyseLoop_data realOps alg wf w (w / 2) (w / 2) hhop len 0 0 _ b1 wins1 hloop1
    have hdata2 : b2.data = data :=
      analyseLoop_data realOps alg wf w (w / 2) (w / 2) hhop len 0 0 _ b2 wins2 hloop2
    rw [hdata1, analyseNormalize_size realOps alg w wins1 (w / 2) b1 ha] at hred1
    rw [hdata2, analyseNormalize_size realOps alg w wins2 (w / 2) b2 ha] at hred2
    have hR0 : procAgree w
        (⟨data, (fun _ => 0), (fun _ => 0), (fun _ => 0),
          updLoop init1 (fun _ _ => 0) w⟩ : Bufs ℝ)
        ⟨data, (fun _ => 0), (fun _ => 0), (fun _ => 0),
          updLoop init2 (fun _ _ => 0) w⟩ := by
      refine ⟨rfl, rfl, rfl, rfl, ?_⟩
      intro i hi
      show updLoop init1 (fun _ _ => 0) w i = updLoop init2 (fun _ _ => 0) w i
      rw [updLoop_lt _ _ _ _ hi, updLoop_lt _ _ _ _ hi]
    obtain ⟨hR, hwins⟩ := analyseLoop_congr realOps alg wf w (w / 2) (w / 2) hhop len
      (by omega) 0 0 _ _ b1 b2 wins1 wins2 hR0 hloop1 hloop2
    refine ⟨(analyseNormalize realOps alg w wins1 (w / 2) b1).1,
      (analyseNormalize realOps alg w wins2 (w / 2) b2).1, hred1, hred2, ?_⟩
    rw [← hwins]
    exact analyseNormalize_congr realOps alg w wins1 (w / 2) b1 b2 hR.2.2.1
      (fun i hi => hR.2.2.2.2 i (by omega))
  · intro hv init
    obtain ⟨h32, h65, ha, hwf, hlen⟩ := hv
    have hhop : 0 < w / 2 := by omega
    cases hloop : analyseLoop realOps alg wf w (w / 2) (w / 2) hhop len 0 0
        ⟨data, (fun _ => 0), (fun _ => 0), (fun _ => 0), updLoop init (fun _ _ => 0) w⟩ with
    | error e =>
      left
      cases e
      simp only [analysefrequencies]
      rw [dif_pos ⟨h32, h65, ha, hwf⟩, if_neg (by omega), hloop]
    | ok p =>
      right
      obtain ⟨b, wins⟩ := p
      have hred := analysefrequencies_valid_eq realOps alg wf w data len init
        ⟨h32, h65, ha, hwf⟩ (by omega) hhop b wins hloop
      have hdata : b.data = data :=
        analyseLoop_data realOps alg wf w (w / 2) (w / 2) hhop len 0 0 _ b wins hloop
      rw [hdata, analyseNormalize_size realOps alg w wins (w / 2) b ha] at hred
      exact ⟨_, hred⟩

/-- Witness for claim C3: a concrete rejected call and a concrete accepted
call, through the same theorem. -/
theorem claim_C3_witness :
    analysefrequencies realOps 0 0 16 (fun _ => (0 : ℝ)) 16 (fun _ => (0 : ℝ)) =
      Except.ok ((fun _ => (0 : ℝ)), (fun _ => (0 : ℝ)), 0) ∧
    (∃ c1 c2,
      analysefrequencies realOps 0 0 32 (fun _ => (0 : ℝ)) 32 (fun _ => (0 : ℝ)) =
        Except.ok ((fun _ => (0 : ℝ)), c1, 32 / 2) ∧
      analysefrequencies realOps 0 0 32 (fun _ => (0 : ℝ)) 32 (fun _ => (1 : ℝ)) =
        Except.ok ((fun _ => (0 : ℝ)), c2, 32 / 2) ∧
      ∀ i, i < 32 / 2 → c1 i = c2 i) ∧
    (analysefrequencies realOps 1 0 33 (fun _ => (0 : ℝ)) 33 (fun _ => (0 : ℝ)) =
        Except.error FFTError.invalidSize ∨
      ∃ c, analysefrequencies realOps 1 0 33 (fun _ => (0 : ℝ)) 33 (fun _ => (0 : ℝ)) =
        Except.ok ((fun _ => (0 : ℝ)), c, 33 / 2)) := by
  refine ⟨?_, ?_, ?_⟩
  · exact (claim_C3_validation 0 0 16 (fun _ => 0) 16).1 (fun _ => 0) (by norm_num)
  · exact (claim_C3_validation 0 0 32 (fun _ => 0) 32).2.1 (by norm_num) ⟨5, by norm_num⟩
      (fun _ => 0) (fun _ => 1)
  · exact (claim_C3_validation 1 0 33 (fun _ => 0) 33).2.2 (by norm_num) (fun _ => 0)

/-- Counterexample to claim C3 as stated: windowSize 33 passes every
validation check with algorithm 1 and mDataLen 33, yet the call does not
return curve length 33 / 2 = 16 - the low level FFT aborts on the
non power of two size (the source terminates the process). -/
theorem claim_C3_counterexample :
    analysefrequencies realOps 1 0 33 (fun _ => (0 : ℝ)) 33 (fun _ => (0 : ℝ)) =
      Except.error FFTError.invalidSize := by
  have hfe : ∀ (ri : ℕ → ℝ) (ii : Option (ℕ → ℝ)) (r0 i0 : ℕ → ℝ),
      FFT realOps 33 false ri ii r0 i0 = Except.error FFTError.invalidSize :=
    fun ri ii r0 i0 => (FFT_error_iff realOps 33 false ri ii r0 i0).mpr (by decide)
  have hblock : ∀ b : Bufs ℝ, analyseBlock realOps 1 0 33 (33 / 2) 0 b =
      Except.error FFTError.invalidSize := by
    intro b
    simp [analyseBlock, hfe]
  simp only [analysefrequencies]
  rw [dif_pos (by norm_num), if_neg (by norm_num)]
  rw [analyseLoop, dif_pos (by norm_num)]
  rw [hblock]

/-- Claim C1 (amended): for every size whose half is a power of two,
PowerSpectrum writes at every bin i below N/2 exactly the squared magnitude
of the RealFFT outputs at that bin; bin N/2 itself is written by neither
routine (see the counterexample). -/
theorem claim_C1_powerSpectrum_refines (n : ℕ) (x oInit : ℕ → ℝ)
    (hp : ∃ m, 1 ≤ m ∧ n / 2 = 2 ^ m) :
    ∃ out rf, PowerSpectrum realOps n x oInit = Except.ok out ∧
      RealFFT realOps n x (fun _ => 0) (fun _ => 0) = Except.ok rf ∧
      ∀ i, i < n / 2 → out i = rf.re i * rf.re i + rf.im i * rf.im i := by
  obtain ⟨out, rf, h1, h2, h3, _⟩ := ps_realFFT_master realOps n x oInit
    ((isPowerOfTwo_iff (n / 2)).mpr hp)
  exact ⟨out, rf, h1, h2, h3⟩

/-- Witness for claim C1 at size 8. -/
theorem claim_C1_witness :
    ∃ out rf, PowerSpectrum realOps 8 (fun _ => (0 : ℝ)) (fun _ => (0 : ℝ)) =
        Except.ok out ∧
      RealFFT realOps 8 (fun _ => (0 : ℝ)) (fun _ => 0) (fun _ => 0) = Except.ok rf ∧
      ∀ i, i < 8 / 2 → out i = rf.re i * rf.re i + rf.im i * rf.im i :=
  claim_C1_powerSpectrum_refines 8 (fun _ => 0) (fun _ => 0) ⟨2, by norm_num⟩

/-- Counterexample to claim C1 as stated: at size 8 the claimed identity also
covers bin N/2 = 4, but PowerSpectrum never writes that bin - its value is
whatever the output buffer held before the call, so no single squared
magnitude can satisfy the claim for two different prior contents. -/
theorem claim_C1_counterexample :
    ∃ out1 out2 rf,
      PowerSpectrum realOps 8 (fun _ => (0 : ℝ)) (fun j => if j = 4 then 1 else 0) =
        Except.ok out1 ∧
      PowerSpectrum realOps 8 (fun _ => (0 : ℝ)) (fun j => if j = 4 then 2 else 0) =
        Except.ok out2 ∧
      RealFFT realOps 8 (fun _ => (0 : ℝ)) (fun _ => 0) (fun _ => 0) = Except.ok rf ∧
      ¬ (out1 4 = rf.re 4 * rf.re 4 + rf.im 4 * rf.im 4 ∧
         out2 4 = rf.re 4 * rf.re 4 + rf.im 4 * rf.im 4) := by
  have hp : IsPowerOfTwo (8 / 2) = true := by decide
  obtain ⟨out1, rf1, h11, h12, h13, h14⟩ := ps_realFFT_master realOps 8 (fun _ => 0)
    (fun j => if j = 4 then 1 else 0) hp
  obtain ⟨out2, rf2, h21, h22, h23, h24⟩ := ps_realFFT_master realOps 8 (fun _ => 0)
    (fun j => if j = 4 then 2 else 0) hp
  refine ⟨out1, out2, rf1, h11, h21, h12, ?_⟩
  rintro ⟨ha, hb⟩
  have e1 : out1 4 = 1 := by
    have := h14 4 (by norm_num)
    simpa using this
  have e2 : out2 4 = 2 := by
    have := h24 4 (by norm_num)
    simpa using this
  rw [e1] at ha
  rw [e2] at hb
  rw [← ha] at hb
  norm_num at hb

/-- Claim C6 (amended): for every valid size, PowerSpectrum writes exactly
size/2 magnitude values, at bins 0 .. size/2 - 1 (their values are determined
by the input alone), and writes no slot at or beyond bin size/2 (those keep
their prior contents). -/
theorem claim_C6_writes_half (n : ℕ) (x oInit1 oInit2 : ℕ → ℝ)
    (hp : ∃ m, 1 ≤ m ∧ n / 2 = 2 ^ m) :
    ∃ out1 out2, PowerSpectrum realOps n x oInit1 = Except.ok out1 ∧
      PowerSpectrum realOps n x oInit2 = Except.ok out2 ∧
      (∀ j, j < n / 2 → out1 j = out2 j) ∧
      (∀ j, n / 2 ≤ j → out1 j = oInit1 j) := by
  have hpb := (isPowerOfTwo_iff (n / 2)).mpr hp
  obtain ⟨out1, rf1, h11, h12, h13, h14⟩ := ps_realFFT_master realOps n x oInit1 hpb
  obtain ⟨out2, rf2, h21, h22, h23, h24⟩ := ps_realFFT_master realOps n x oInit2 hpb
  have hrr : rf1 = rf2 := by
    rw [h12] at h22
    cases h22
    rfl
  refine ⟨out1, out2, h11, h21, ?_, h14⟩
  intro j hj
  rw [h13 j hj, h23 j hj, hrr]

/-- Witness for claim C6 at size 8. -/
theorem claim_C6_witness :
    ∃ out1 out2, PowerSpectrum realOps 8 (fun _ => (0 : ℝ)) (fun _ => (0 : ℝ)) =
        Except.ok out1 ∧
      PowerSpectrum realOps 8 (fun _ => (0 : ℝ)) (fun _ => (1 : ℝ)) = Except.ok out2 ∧
      (∀ j, j < 8 / 2 → out1 j = out2 j) ∧
      (∀ j, 8 / 2 ≤ j → out1 j = (fun _ => (0 : ℝ)) j) :=
  claim_C6_writes_half 8 (fun _ => 0) (fun _ => 0) (fun _ => 1) ⟨2, by norm_num⟩

/-- Counterexample to claim C6 as stated: the claim announces size/2 + 1
written values including bin size/2, but at size 8 bin 4 keeps whatever the
buffer held before the call (1 or 2 here), so only size/2 values are
written. -/
theorem claim_C6_counterexample :
    ∃ out1 out2,
      PowerSpectrum realOps 8 (fun _ => (0 : ℝ)) (fun j => if j = 4 then 1 else 0) =
        Except.ok out1 ∧
      PowerSpectrum realOps 8 (fun _ => (0 : ℝ)) (fun j => if j = 4 then 2 else 0) =
        Except.ok out2 ∧
      out1 4 = 1 ∧ out2 4 = 2 := by
  have hp : IsPowerOfTwo (8 / 2) = true := by decide
  obtain ⟨out1, rf1, h11, h12, h13, h14⟩ := ps_realFFT_master realOps 8 (fun _ => 0)
    (fun j => if j = 4 then 1 else 0) hp
  obtain ⟨out2, rf2, h21, h22, h23, h24⟩ := ps_realFFT_master realOps 8 (fun _ => 0)
    (fun j => if j = 4 then 2 else 0) hp
  refine ⟨out1, out2, h11, h21, ?_, ?_⟩
  · have := h14 4 (by norm_num)
    simpa using this
  · have := h24 4 (by norm_num)
    simpa using this

theorem analyseBlock_zero (F : FloatOps K) (w half start : ℕ)
    (hp : IsPowerOfTwo (w / 2) = true) (b : Bufs K)
    (hdata : ∀ i, b.data i = 0) (hin : ∀ i, b.inB i = 0)
    (hout : ∀ i, b.outB i = 0) (hout2 : ∀ i, b.out2B i = 0)
    (hproc : ∀ i, b.proc i = 0) :
    ∃ b2 : Bufs K, analyseBlock F 0 0 w half start b = Except.ok b2 ∧
      b2.data = b.data ∧ (∀ i, b2.inB i = 0) ∧ (∀ i, b2.outB i = 0) ∧
      (∀ i, b2.out2B i = 0) ∧ (∀ i, b2.proc i = 0) := by
  have hinW : ∀ q,
      WindowFunc F 0 w (updLoop b.inB (fun i _ => b.data (start + i)) w) q = 0 := by
    intro q
    rw [windowFunc_id F 0 w _ (by decide) (by decide) (by decide)]
    rw [updLoop_apply]
    split
    · exact hdata _
    · exact hin q
  obtain ⟨out, hps, hz⟩ := PowerSpectrum_zero F w
    (WindowFunc F 0 w (updLoop b.inB (fun i _ => b.data (start + i)) w)) b.outB hinW hout hp
  refine ⟨{ b with
      inB := WindowFunc F 0 w (updLoop b.inB (fun i _ => b.data (start + i)) w)
      outB := out
      proc := updLoop b.proc (fun i v => v + out i) half }, ?_, rfl, hinW, hz, hout2, ?_⟩
  · simp only [analyseBlock]
    rw [if_pos trivial, hps]
  · intro i
    show updLoop b.proc (fun i v => v + out i) half i = 0
    rw [updLoop_apply]
    split
    · rw [hproc i, hz i, add_zero]
    · exact hproc i

/-- Claim C8 (code bug): on an all zero (silent) signal with algorithm 0,
analysefrequencies succeeds and the decibel conversion evaluates
10 * log10(0) with no guard: every curve entry below windowSize / 2 is
exactly 10 * F.log10 0, for any semantics F of log10.  In IEEE float
arithmetic log10(0) is -infinity, not the large negative finite floor the
specification describes. -/
theorem claim_C8_log10_of_zero (F : FloatOps ℝ) :
    ∃ curve : ℕ → ℝ,
      analysefrequencies F 0 0 64 (fun _ => (0 : ℝ)) 64 (fun _ => 0) =
        Except.ok ((fun _ => 0), curve, 64 / 2) ∧
      ∀ i, i < 64 / 2 → curve i = 10 * F.log10 0 := by
  have hproc0 : ∀ i, updLoop (fun _ => (0 : ℝ)) (fun _ _ => (0 : ℝ)) 64 i = 0 := by
    intro i
    rw [updLoop_apply]
    split <;> rfl
  obtain ⟨b2, heq, hd, hi, ho, ho2, hpf⟩ := analyseBlock_zero F 64 (64 / 2) 0 (by decide)
    ⟨(fun _ => 0), (fun _ => 0), (fun _ => 0), (fun _ => 0),
      updLoop (fun _ => (0 : ℝ)) (fun _ _ => 0) 64⟩
    (fun _ => rfl) (fun _ => rfl) (fun _ => rfl) (fun _ => rfl) hproc0
  have hloop : analyseLoop F 0 0 64 (64 / 2) (64 / 2) (by norm_num) 64 0 0
      ⟨(fun _ => 0), (fun _ => 0), (fun _ => 0), (fun _ => 0),
        updLoop (fun _ => (0 : ℝ)) (fun _ _ => 0) 64⟩ = Except.ok (b2, 1) := by
    rw [analyseLoop, dif_pos (by norm_num)]
    simp only [heq]
    rw [analyseLoop, dif_neg (by norm_num)]
  have hd2 : b2.data = (fun _ => (0 : ℝ)) := hd
  have hsz : (analyseNormalize F 0 64 1 (64 / 2) b2).2 = 64 / 2 := by
    simp only [analyseNormalize]
    rw [if_pos trivial]
  refine ⟨(analyseNormalize F 0 64 1 (64 / 2) b2).1, ?_, ?_⟩
  · simp only [analysefrequencies]
    rw [dif_pos (by norm_num), if_neg (by norm_num)]
    simp only [hloop]
    rw [hd2, hsz]
  · intro i hi2
    show (analyseNormalize F 0 64 1 (64 / 2) b2).1 i = 10 * F.log10 0
    simp only [analyseNormalize]
    rw [if_pos trivial]
    show updLoop b2.proc (fun _ v => 10 * F.log10 (v / ((64 : ℕ) : ℝ) / ((1 : ℕ) : ℝ)))
      (64 / 2) i = 10 * F.log10 0
    rw [updLoop_apply, if_pos hi2, hpf i]
    norm_num

/-- Witness for claim C8 with the concrete real valued operation table. -/
theorem claim_C8_witness :
    ∃ curve : ℕ → ℝ,
      analysefrequencies realOps 0 0 64 (fun _ => (0 : ℝ)) 64 (fun _ => 0) =
        Except.ok ((fun _ => 0), curve, 64 / 2) ∧
      ∀ i, i < 64 / 2 → curve i = 10 * realOps.log10 0 :=
  claim_C8_log10_of_zero realOps

/-! Basic algebra of the unit circle point cex. -/

theorem cex_zero : cex 0 = 1 := by
  simp [cex]

theorem cex_re (a : ℝ) : (cex a).re = Real.cos a := by
  rw [cex, Complex.exp_ofReal_mul_I_re]

theorem cex_im (a : ℝ) : (cex a).im = Real.sin a := by
  rw [cex, Complex.exp_ofReal_mul_I_im]

theorem cex_add (a b : ℝ) : cex (a + b) = cex a * cex b := by
  rw [cex, cex, cex, ← Complex.exp_add]
  congr 1
  push_cast
  ring

theorem cex_nat_mul (a : ℝ) (n : ℕ) : cex ((n : ℝ) * a) = cex a ^ n := by
  rw [cex, cex, ← Complex.exp_nat_mul]
  congr 1
  push_cast
  ring

theorem cex_int_two_pi (k : ℤ) : cex (2 * Real.pi * (k : ℝ)) = 1 := by
  rw [cex]
  have h : ((2 * Real.pi * (k : ℝ) : ℝ) : ℂ) * Complex.I =
      (k : ℂ) * (2 * (Real.pi : ℂ) * Complex.I) := by
    push_cast
    ring
  rw [h, Complex.exp_int_mul_two_pi_mul_I]

theorem cex_pi : cex Real.pi = -1 := by
  rw [cex]
  exact Complex.exp_pi_mul_I

theorem cex_neg_pi : cex (-Real.pi) = -1 := by
  rw [cex]
  push_cast
  rw [neg_mul, Complex.exp_neg, Complex.exp_pi_mul_I]
  norm_num

/-! The Chebyshev style three term recurrence satisfied by cos and sin, the
identity behind the twiddle registers of the butterfly loop. -/

theorem cos_chebyshev (a d : ℝ) :
    2 * Real.cos (-d) * Real.cos (a - d) - Real.cos (a - 2 * d) = Real.cos a := by
  have h2 : a - 2 * d = a - d - d := by ring
  rw [Real.cos_neg, h2, Real.cos_sub (a - d) d, Real.cos_sub a d, Real.sin_sub a d]
  have hpyth := Real.sin_sq_add_cos_sq d
  linear_combination Real.cos a * hpyth

theorem sin_chebyshev (a d : ℝ) :
    2 * Real.cos (-d) * Real.sin (a - d) - Real.sin (a - 2 * d) = Real.sin a := by
  have h2 : a - 2 * d = a - d - d := by ring
  rw [Real.cos_neg, h2, Real.sin_sub (a - d) d, Real.cos_sub a d, Real.sin_sub a d]
  have hpyth := Real.sin_sq_add_cos_sq d
  linear_combination Real.sin a * hpyth

/-! Pointwise effect of one butterfly: the register turnover, the two cells
written, and the frame on every other cell. -/

theorem fftInnerStep_regs (w2 : K) (BE iBase : ℕ) (s : CBuf K × K × K × K × K) (np : ℕ) :
    (fftInnerStep w2 BE iBase s np).2 =
      (w2 * s.2.1 - s.2.2.1, s.2.1, w2 * s.2.2.2.1 - s.2.2.2.2, s.2.2.2.1) := rfl

theorem fftInnerStep_untouched (w2 : K) (BE iBase : ℕ) (s : CBuf K × K × K × K × K)
    (np p : ℕ) (h1 : p ≠ iBase + np) (h2 : p ≠ iBase + np + BE) :
    (fftInnerStep w2 BE iBase s np).1.re p = s.1.re p ∧
    (fftInnerStep w2 BE iBase s np).1.im p = s.1.im p := by
  simp only [fftInnerStep]
  rw [upd_other _ _ _ h1, upd_other _ _ _ h2, upd_other _ _ _ h1, upd_other _ _ _ h2]
  exact ⟨rfl, rfl⟩

theorem fftInnerStep_at_j (w2 : K) (BE iBase : ℕ) (hBE : 0 < BE)
    (s : CBuf K × K × K × K × K) (np : ℕ) :
    (fftInnerStep w2 BE iBase s np).1.re (iBase + np) =
      s.1.re (iBase + np) +
        ((w2 * s.2.1 - s.2.2.1) * s.1.re (iBase + np + BE) -
         (w2 * s.2.2.2.1 - s.2.2.2.2) * s.1.im (iBase + np + BE)) ∧
    (fftInnerStep w2 BE iBase s np).1.im (iBase + np) =
      s.1.im (iBase + np) +
        ((w2 * s.2.1 - s.2.2.1) * s.1.im (iBase + np + BE) +
         (w2 * s.2.2.2.1 - s.2.2.2.2) * s.1.re (iBase + np + BE)) := by
  have hne : iBase + np ≠ iBase + np + BE := by omega
  simp only [fftInnerStep]
  rw [upd_same, upd_same, upd_other _ _ _ hne, upd_other _ _ _ hne]
  exact ⟨rfl, rfl⟩

theorem fftInnerStep_at_k (w2 : K) (BE iBase : ℕ) (hBE : 0 < BE)
    (s : CBuf K × K × K × K × K) (np : ℕ) :
    (fftInnerStep w2 BE iBase s np).1.re (iBase + np + BE) =
      s.1.re (iBase + np) -
        ((w2 * s.2.1 - s.2.2.1) * s.1.re (iBase + np + BE) -
         (w2 * s.2.2.2.1 - s.2.2.2.2) * s.1.im (iBase + np + BE)) ∧
    (fftInnerStep w2 BE iBase s np).1.im (iBase + np + BE) =
      s.1.im (iBase + np) -
        ((w2 * s.2.1 - s.2.2.1) * s.1.im (iBase + np + BE) +
         (w2 * s.2.2.2.1 - s.2.2.2.2) * s.1.re (iBase + np + BE)) := by
  have hne : iBase + np + BE ≠ iBase + np := by omega
  simp only [fftInnerStep]
  rw [upd_other _ _ _ hne, upd_same, upd_other _ _ _ hne, upd_same]
  exact ⟨rfl, rfl⟩

theorem innerInv_step (d : ℝ) (BE iBase : ℕ) (B : CBuf ℝ) (t : ℕ) (ht : t < BE)
    (st : CBuf ℝ × ℝ × ℝ × ℝ × ℝ) (hs : innerInv d BE iBase B t st) :
    innerInv d BE iBase B (t + 1) (fftInnerStep (2 * Real.cos (-d)) BE iBase st t) := by
  obtain ⟨h1, h2, h3, h4, hw, hu⟩ := hs
  have hBE : 0 < BE := by omega
  have hregs := fftInnerStep_regs (2 * Real.cos (-d)) BE iBase st t
  have hatj := fftInnerStep_at_j (2 * Real.cos (-d)) BE iBase hBE st t
  have hatk := fftInnerStep_at_k (2 * Real.cos (-d)) BE iBase hBE st t
  have har0 : 2 * Real.cos (-d) * st.2.1 - st.2.2.1 = Real.cos ((t : ℝ) * d) := by
    rw [h1, h2]
    have e1 : ((t : ℝ) - 1) * d = (t : ℝ) * d - d := by ring
    have e2 : ((t : ℝ) - 2) * d = (t : ℝ) * d - 2 * d := by ring
    rw [e1, e2]
    exact cos_chebyshev ((t : ℝ) * d) d
  have hai0 : 2 * Real.cos (-d) * st.2.2.2.1 - st.2.2.2.2 = Real.sin ((t : ℝ) * d) := by
    rw [h3, h4]
    have e1 : ((t : ℝ) - 1) * d = (t : ℝ) * d - d := by ring
    have e2 : ((t : ℝ) - 2) * d = (t : ℝ) * d - 2 * d := by ring
    rw [e1, e2]
    exact sin_chebyshev ((t : ℝ) * d) d
  have hrj := hu (iBase + t) (Or.inr (Or.inl ⟨le_refl _, by omega⟩))
  have hrk := hu (iBase + t + BE) (Or.inr (Or.inr (by omega)))
  have hc1 : (fftInnerStep (2 * Real.cos (-d)) BE iBase st t).2.1 =
      2 * Real.cos (-d) * st.2.1 - st.2.2.1 := by rw [hregs]
  have hc2 : (fftInnerStep (2 * Real.cos (-d)) BE iBase st t).2.2.1 = st.2.1 := by rw [hregs]
  have hc3 : (fftInnerStep (2 * Real.cos (-d)) BE iBase st t).2.2.2.1 =
      2 * Real.cos (-d) * st.2.2.2.1 - st.2.2.2.2 := by rw [hregs]
  have hc4 : (fftInnerStep (2 * Real.cos (-d)) BE iBase st t).2.2.2.2 = st.2.2.2.1 := by
    rw [hregs]
  refine ⟨?_, ?_, ?_, ?_, ?_, ?_⟩
  · rw [hc1, har0]
    congr 1
    push_cast
    ring
  · rw [hc2, h1]
    congr 1
    push_cast
    ring
  · rw [hc3, hai0]
    congr 1
    push_cast
    ring
  · rw [hc4, h3]
    congr 1
    push_cast
    ring
  · intro np hnp
    rcases Nat.lt_or_ge np t with hlt | hge
    · have hu1 := fftInnerStep_untouched (2 * Real.cos (-d)) BE iBase st t (iBase + np)
        (by omega) (by omega)
      have hu2 := fftInnerStep_untouched (2 * Real.cos (-d)) BE iBase st t (iBase + np + BE)
        (by omega) (by omega)
      have hcv1 : cval (fftInnerStep (2 * Real.cos (-d)) BE iBase st t).1 (iBase + np) =
          cval st.1 (iBase + np) := by
        simp only [cval, hu1.1, hu1.2]
      have hcv2 : cval (fftInnerStep (2 * Real.cos (-d)) BE iBase st t).1 (iBase + np + BE) =
          cval st.1 (iBase + np + BE) := by
        simp only [cval, hu2.1, hu2.2]
      rw [hcv1, hcv2]
      exact hw np hlt
    · have hnp_eq : np = t := by omega
      subst hnp_eq
      obtain ⟨hrea, hima⟩ := hatj
      obtain ⟨hreb, himb⟩ := hatk
      simp only [har0, hai0, hrj.1, hrj.2, hrk.1, hrk.2] at hrea hima hreb himb
      constructor
      · apply Complex.ext
        · simp only [cval, Complex.add_re, Complex.mul_re, cex_re, cex_im]
          rw [hrea]
        · simp only [cval, Complex.add_im, Complex.mul_im, cex_re, cex_im]
          rw [hima]
      · apply Complex.ext
        · simp only [cval, Complex.sub_re, Complex.mul_re, cex_re, cex_im]
          rw [hreb]
        · simp only [cval, Complex.sub_im, Complex.mul_im, cex_re, cex_im]
          rw [himb]
  · intro p hp
    have h := fftInnerStep_untouched (2 * Real.cos (-d)) BE iBase st t p (by omega) (by omega)
    have h2 := hu p (by omega)
    exact ⟨h.1.trans h2.1, h.2.trans h2.2⟩

theorem fftInner_loop (d : ℝ) (BE iBase : ℕ) (B : CBuf ℝ) (t : ℕ) (ht : t ≤ BE) :
    innerInv d BE iBase B t
      ((List.range t).foldl (fftInnerStep (2 * Real.cos (-d)) BE iBase)
        (B, Real.cos (-d), Real.cos (-(2 * d)), Real.sin (-d), Real.sin (-(2 * d)))) := by
  refine foldl_range_inv (innerInv d BE iBase B) _ t _ ?_ ?_
  · refine ⟨?_, ?_, ?_, ?_, fun np hnp => absurd hnp (by omega), fun p _ => ⟨rfl, rfl⟩⟩
    · show Real.cos (-d) = _
      congr 1
      push_cast
      ring
    · show Real.cos (-(2 * d)) = _
      congr 1
      push_cast
      ring
    · show Real.sin (-d) = _
      congr 1
      push_cast
      ring
    · show Real.sin (-(2 * d)) = _
      congr 1
      push_cast
      ring
  · intro i s hi hs
    exact innerInv_step d BE iBase B i (by omega) s hs

theorem fftPass_apply (N : ℕ) (α : ℝ) (BE : ℕ) (hBE : 0 < BE) (B : CBuf ℝ) :
    (∀ bl t, bl < N / (2 * BE) → t < BE →
      cval (fftPass realOps N α (2 * BE) BE B) (bl * (2 * BE) + t) =
        cval B (bl * (2 * BE) + t) +
          cex ((t : ℝ) * (α / ((2 * BE : ℕ) : ℝ))) * cval B (bl * (2 * BE) + t + BE) ∧
      cval (fftPass realOps N α (2 * BE) BE B) (bl * (2 * BE) + t + BE) =
        cval B (bl * (2 * BE) + t) -
          cex ((t : ℝ) * (α / ((2 * BE : ℕ) : ℝ))) * cval B (bl * (2 * BE) + t + BE)) ∧
    (∀ p, N / (2 * BE) * (2 * BE) ≤ p →
      (fftPass realOps N α (2 * BE) BE B).re p = B.re p ∧
      (fftPass realOps N α (2 * BE) BE B).im p = B.im p) := by
  have hfe : fftPass realOps N α (2 * BE) BE B =
      (List.range' 0 (N / (2 * BE)) (2 * BE)).foldl
        (fun b iBase => ((List.range BE).foldl
          (fftInnerStep (2 * Real.cos (-(α / ((2 * BE : ℕ) : ℝ)))) BE iBase)
          (b, Real.cos (-(α / ((2 * BE : ℕ) : ℝ))),
           Real.cos (-(2 * (α / ((2 * BE : ℕ) : ℝ)))),
           Real.sin (-(α / ((2 * BE : ℕ) : ℝ))),
           Real.sin (-(2 * (α / ((2 * BE : ℕ) : ℝ)))))).1) B := by
    simp only [fftPass, realOps]
  have hfold := foldl_range'_step_inv
    (fun c st => (∀ bl t, bl < c → t < BE →
        cval st (bl * (2 * BE) + t) = cval B (bl * (2 * BE) + t) +
          cex ((t : ℝ) * (α / ((2 * BE : ℕ) : ℝ))) * cval B (bl * (2 * BE) + t + BE) ∧
        cval st (bl * (2 * BE) + t + BE) = cval B (bl * (2 * BE) + t) -
          cex ((t : ℝ) * (α / ((2 * BE : ℕ) : ℝ))) * cval B (bl * (2 * BE) + t + BE)) ∧
      (∀ p, c * (2 * BE) ≤ p → st.re p = B.re p ∧ st.im p = B.im p))
    (fun b iBase => ((List.range BE).foldl
      (fftInnerStep (2 * Real.cos (-(α / ((2 * BE : ℕ) : ℝ)))) BE iBase)
      (b, Real.cos (-(α / ((2 * BE : ℕ) : ℝ))),
       Real.cos (-(2 * (α / ((2 * BE : ℕ) : ℝ)))),
       Real.sin (-(α / ((2 * BE : ℕ) : ℝ))),
       Real.sin (-(2 * (α / ((2 * BE : ℕ) : ℝ)))))).1)
    (2 * BE) 0 (N / (2 * BE)) B
    ⟨fun bl t hbl _ => absurd hbl (by omega), fun p _ => ⟨rfl, rfl⟩⟩
    ?_
  · rw [hfe]
    exact hfold
  · intro c st hc hP
    obtain ⟨hA, hB2⟩ := hP
    have hzero : 0 + c * (2 * BE) = c * (2 * BE) := by omega
    rw [hzero]
    obtain ⟨r1, r2, r3, r4, hwv, hunt⟩ :=
      fftInner_loop (α / ((2 * BE : ℕ) : ℝ)) BE (c * (2 * BE)) st BE le_rfl
    constructor
    · intro bl t hbl htlt
      rcases Nat.lt_or_ge bl c with hblc | hblc
      · have hq1 := hunt (bl * (2 * BE) + t) (Or.inl (by nlinarith))
        have hq2 := hunt (bl * (2 * BE) + t + BE) (Or.inl (by nlinarith))
        have hcv1 : cval (((List.range BE).foldl
            (fftInnerStep (2 * Real.cos (-(α / ((2 * BE : ℕ) : ℝ)))) BE (c * (2 * BE)))
            (st, Real.cos (-(α / ((2 * BE : ℕ) : ℝ))),
             Real.cos (-(2 * (α / ((2 * BE : ℕ) : ℝ)))),
             Real.sin (-(α / ((2 * BE : ℕ) : ℝ))),
             Real.sin (-(2 * (α / ((2 * BE : ℕ) : ℝ)))))).1) (bl * (2 * BE) + t) =
            cval st (bl * (2 * BE) + t) := by
          simp only [cval, hq1.1, hq1.2]
        have hcv2 : cval (((List.range BE).foldl
            (fftInnerStep (2 * Real.cos (-(α / ((2 * BE : ℕ) : ℝ)))) BE (c * (2 * BE)))
            (st, Real.cos (-(α / ((2 * BE : ℕ) : ℝ))),
             Real.cos (-(2 * (α / ((2 * BE : ℕ) : ℝ)))),
             Real.sin (-(α / ((2 * BE : ℕ) : ℝ))),
             Real.sin (-(2 * (α / ((2 * BE : ℕ) : ℝ)))))).1) (bl * (2 * BE) + t + BE) =
            cval st (bl * (2 * BE) + t + BE) := by
          simp only [cval, hq2.1, hq2.2]
        rw [hcv1, hcv2]
        exact hA bl t hblc htlt
      · have hbl_eq : bl = c := by omega
        subst hbl_eq
        have hwt := hwv t htlt
        have hs1 : st.re (bl * (2 * BE) + t) = B.re (bl * (2 * BE) + t) ∧
            st.im (bl * (2 * BE) + t) = B.im (bl * (2 * BE) + t) :=
          hB2 (bl * (2 * BE) + t) (by omega)
        have hs2 : st.re (bl * (2 * BE) + t + BE) = B.re (bl * (2 * BE) + t + BE) ∧
            st.im (bl * (2 * BE) + t + BE) = B.im (bl * (2 * BE) + t + BE) :=
          hB2 (bl * (2 * BE) + t + BE) (by omega)
        have hcb1 : cval st (bl * (2 * BE) + t) = cval B (bl * (2 * BE) + t) := by
          simp only [cval, hs1.1, hs1.2]
        have hcb2 : cval st (bl * (2 * BE) + t + BE) = cval B (bl * (2 * BE) + t + BE) := by
          simp only [cval, hs2.1, hs2.2]
        rw [hcb1, hcb2] at hwt
        exact hwt
    · intro p hp
      have hmul : (c + 1) * (2 * BE) = c * (2 * BE) + BE + BE := by ring
      have hq := hunt p (Or.inr (Or.inr (by omega)))
      have hb := hB2 p (by omega)
      exact ⟨hq.1.trans hb.1, hq.2.trans hb.2⟩

theorem sum_range_even_odd (f : ℕ → ℂ) (n : ℕ) :
    (Finset.range (2 * n)).sum f =
      (Finset.range n).sum (fun u => f (2 * u)) +
      (Finset.range n).sum (fun u => f (2 * u + 1)) := by
  induction n with
  | zero => simp
  | succ n ih =>
    have h : 2 * (n + 1) = 2 * n + 1 + 1 := by ring
    rw [h, Finset.sum_range_succ, Finset.sum_range_succ, Finset.sum_range_succ,
      Finset.sum_range_succ, ih]
    ring

theorem reverseBits_two_mul (b k : ℕ) : ReverseBits (2 * b) (k + 1) = ReverseBits b k := by
  have h1 : 2 * b % 2 = 0 := Nat.mul_mod_right 2 b
  have h2 : 2 * b / 2 = b := by omega
  rw [reverseBits_succ, h1, h2]
  simp

theorem reverseBits_two_mul_add_one (b k : ℕ) :
    ReverseBits (2 * b + 1) (k + 1) = 2 ^ k + ReverseBits b k := by
  have h1 : (2 * b + 1) % 2 = 1 := by omega
  have h2 : (2 * b + 1) / 2 = b := by omega
  rw [reverseBits_succ, h1, h2, one_mul]

theorem fftScatter_apply (m : ℕ) (hm : 1 ≤ m) (ri fi : ℕ → K) (buf : CBuf K) (p : ℕ)
    (hp : p < 2 ^ m) :
    (fftScatter (2 ^ m) m ri (some fi) buf).re p = ri (ReverseBits p m) ∧
    (fftScatter (2 ^ m) m ri (some fi) buf).im p = fi (ReverseBits p m) := by
  have hkey : ∀ q, q < 2 ^ m →
      ((ReverseBits q m < 2 ^ m →
        (fftScatter (2 ^ m) m ri (some fi) buf).re q = ri (ReverseBits q m) ∧
        (fftScatter (2 ^ m) m ri (some fi) buf).im q = fi (ReverseBits q m)) ∧
       (2 ^ m ≤ ReverseBits q m →
        (fftScatter (2 ^ m) m ri (some fi) buf).re q = buf.re q ∧
        (fftScatter (2 ^ m) m ri (some fi) buf).im q = buf.im q)) := by
    simp only [fftScatter]
    refine foldl_range_inv
      (fun i (b : CBuf K) => ∀ q, q < 2 ^ m →
        ((ReverseBits q m < i → b.re q = ri (ReverseBits q m) ∧ b.im q = fi (ReverseBits q m)) ∧
         (i ≤ ReverseBits q m → b.re q = buf.re q ∧ b.im q = buf.im q)))
      _ (2 ^ m) buf
      (fun q _ => ⟨fun h => absurd h (by omega), fun _ => ⟨rfl, rfl⟩⟩) ?_
    intro i b hi hb q hq
    have hJ : FastReverseBits i m = ReverseBits i m := fastReverseBits_eq i m hm hi
    by_cases hqi : q = ReverseBits i m
    · have hrev : ReverseBits q m = i := by
        rw [hqi]
        exact reverseBits_reverseBits i m hi
      constructor
      · intro _
        rw [hrev, hqi, hJ]
        exact ⟨upd_same _ _ _, upd_same _ _ _⟩
      · intro hge
        rw [hrev] at hge
        omega
    · have hner : ReverseBits q m ≠ i := by
        intro he
        apply hqi
        rw [← he]
        exact (reverseBits_reverseBits q m hq).symm
      have hne : q ≠ FastReverseBits i m := by
        rw [hJ]
        exact hqi
      constructor
      · intro hlt
        have hlt2 : ReverseBits q m < i := by omega
        have h := (hb q hq).1 hlt2
        refine ⟨?_, ?_⟩
        · show upd b.re (FastReverseBits i m) (ri i) q = _
          rw [upd_other _ _ _ hne]
          exact h.1
        · show upd b.im (FastReverseBits i m) (fi i) q = _
          rw [upd_other _ _ _ hne]
          exact h.2
      · intro hge
        have h := (hb q hq).2 (by omega)
        refine ⟨?_, ?_⟩
        · show upd b.re (FastReverseBits i m) (ri i) q = _
          rw [upd_other _ _ _ hne]
          exact h.1
        · show upd b.im (FastReverseBits i m) (fi i) q = _
          rw [upd_other _ _ _ hne]
          exact h.2
  exact (hkey p hp).1 (reverseBits_lt p m)

/-! The radix 2 butterfly identity on the partial sub transforms: the size
2 ^ (s + 1) sub transform of a block splits into the two size 2 ^ s sub
transforms of its even and odd interleavings. -/

theorem subDFT_split_lo (x : ℕ → ℂ) (α : ℝ) (m s b t : ℕ) (hs : s + 1 ≤ m) :
    subDFT x α m (s + 1) b t =
      subDFT x α m s (2 * b) t +
        cex ((t : ℝ) * (α / ((2 * 2 ^ s : ℕ) : ℝ))) * subDFT x α m s (2 * b + 1) t := by
  unfold subDFT
  have h2 : (2 : ℕ) ^ (s + 1) = 2 * 2 ^ s := by ring
  rw [h2, sum_range_even_odd, Finset.mul_sum]
  have hms : m - s = (m - (s + 1)) + 1 := by omega
  congr 1
  · apply Finset.sum_congr rfl
    intro u hu
    congr 1
    · congr 1
      rw [hms, reverseBits_two_mul, pow_succ]
      ring
    · congr 1
      push_cast
      have hne : ((2 : ℝ) ^ s) ≠ 0 := by positivity
      field_simp
      ring
  · apply Finset.sum_congr rfl
    intro u hu
    have harg : α * (t : ℝ) * ((2 * u + 1 : ℕ) : ℝ) / 2 ^ (s + 1) =
        (t : ℝ) * (α / ((2 * 2 ^ s : ℕ) : ℝ)) + α * (t : ℝ) * (u : ℝ) / 2 ^ s := by
      push_cast
      have hne : ((2 : ℝ) ^ s) ≠ 0 := by positivity
      field_simp
      ring
    rw [harg, cex_add]
    have hidx : 2 * u + 1 = 2 * u + 1 := rfl
    have hrev : ReverseBits (2 * b + 1) (m - s) = 2 ^ (m - (s + 1)) + ReverseBits b (m - (s + 1)) := by
      rw [hms, reverseBits_two_mul_add_one]
    have hind : (2 * u + 1) * 2 ^ (m - (s + 1)) + ReverseBits b (m - (s + 1)) =
        u * 2 ^ (m - s) + ReverseBits (2 * b + 1) (m - s) := by
      rw [hrev, hms, pow_succ]
      ring
    rw [hind]
    ring

theorem subDFT_split_hi (x : ℕ → ℂ) (α : ℝ) (m s b t : ℕ) (hs : s + 1 ≤ m)
    (hhalf : cex (α / 2) = -1) (hone : ∀ u : ℕ, cex (α * (u : ℝ)) = 1) :
    subDFT x α m (s + 1) b (t + 2 ^ s) =
      subDFT x α m s (2 * b) t -
        cex ((t : ℝ) * (α / ((2 * 2 ^ s : ℕ) : ℝ))) * subDFT x α m s (2 * b + 1) t := by
  unfold subDFT
  have h2 : (2 : ℕ) ^ (s + 1) = 2 * 2 ^ s := by ring
  rw [h2, sum_range_even_odd, Finset.mul_sum, sub_eq_add_neg, ← Finset.sum_neg_distrib]
  have hms : m - s = (m - (s + 1)) + 1 := by omega
  congr 1
  · apply Finset.sum_congr rfl
    intro u hu
    have harg : α * ((t + 2 ^ s : ℕ) : ℝ) * ((2 * u : ℕ) : ℝ) / 2 ^ (s + 1) =
        α * (t : ℝ) * (u : ℝ) / 2 ^ s + α * (u : ℝ) := by
      push_cast
      have hne : ((2 : ℝ) ^ s) ≠ 0 := by positivity
      field_simp
      ring
    rw [harg, cex_add, hone u, mul_one]
    congr 1
    congr 1
    rw [hms, reverseBits_two_mul, pow_succ]
    ring
  · apply Finset.sum_congr rfl
    intro u hu
    have harg : α * ((t + 2 ^ s : ℕ) : ℝ) * ((2 * u + 1 : ℕ) : ℝ) / 2 ^ (s + 1) =
        (α * (t : ℝ) * (u : ℝ) / 2 ^ s + (t : ℝ) * (α / ((2 * 2 ^ s : ℕ) : ℝ))) +
          (α * (u : ℝ) + α / 2) := by
      push_cast
      have hne : ((2 : ℝ) ^ s) ≠ 0 := by positivity
      field_simp
      ring
    rw [harg, cex_add, cex_add, cex_add, hone u, hhalf, one_mul]
    have hrev : ReverseBits (2 * b + 1) (m - s) =
        2 ^ (m - (s + 1)) + ReverseBits b (m - (s + 1)) := by
      rw [hms, reverseBits_two_mul_add_one]
    have hind : (2 * u + 1) * 2 ^ (m - (s + 1)) + ReverseBits b (m - (s + 1)) =
        u * 2 ^ (m - s) + ReverseBits (2 * b + 1) (m - s) := by
      rw [hrev, hms, pow_succ]
      ring
    rw [hind]
    ring

theorem fftPasses_dft (m : ℕ) (α : ℝ)
    (hhalf : cex (α / 2) = -1) (hone : ∀ u : ℕ, cex (α * (u : ℝ)) = 1)
    (x : ℕ → ℂ) (B : CBuf ℝ)
    (hB : ∀ p, p < 2 ^ m → cval B p = x (ReverseBits p m)) (t : ℕ) (ht : t < 2 ^ m) :
    cval (fftPasses realOps (2 ^ m) m α B) t =
      (Finset.range (2 ^ m)).sum (fun u => x u * cex (α * (t : ℝ) * (u : ℝ) / 2 ^ m)) := by
  have hkey := foldl_range_inv
    (fun s (st : CBuf ℝ × ℕ) => st.2 = 2 ^ s ∧
      ∀ b tt, b < 2 ^ (m - s) → tt < 2 ^ s →
        cval st.1 (b * 2 ^ s + tt) = subDFT x α m s b tt)
    (fun st s => (fftPass realOps (2 ^ m) α (2 ^ (s + 1)) st.2 st.1, 2 ^ (s + 1)))
    m (B, 1) ?_ ?_
  · obtain ⟨_, hform⟩ := hkey
    have hfin := hform 0 t (Nat.pos_pow_of_pos _ (by omega)) ht
    have hzero : 0 * 2 ^ m + t = t := by simp
    rw [hzero] at hfin
    simp only [fftPasses]
    rw [hfin]
    unfold subDFT
    apply Finset.sum_congr rfl
    intro u _
    have hidx : u * 2 ^ (m - m) + ReverseBits 0 (m - m) = u := by
      simp [Nat.sub_self, ReverseBits, revGo]
    rw [hidx]
  · refine ⟨rfl, ?_⟩
    intro b tt hb htt
    have htt0 : tt = 0 := by
      have : (2 : ℕ) ^ 0 = 1 := pow_zero 2
      omega
    subst htt0
    show cval B (b * 2 ^ 0 + 0) = subDFT x α m 0 b 0
    have hpos : b * 2 ^ 0 + 0 = b := by simp
    rw [hpos]
    have hb' : b < 2 ^ m := by
      have : m - 0 = m := Nat.sub_zero m
      rw [this] at hb
      exact hb
    rw [hB b hb']
    unfold subDFT
    rw [pow_zero, Finset.sum_range_one]
    have harg : α * ((0 : ℕ) : ℝ) * ((0 : ℕ) : ℝ) / 2 ^ 0 = 0 := by
      push_cast
      ring
    rw [harg, cex_zero, mul_one]
    congr 1
    simp [Nat.sub_zero]
  · intro s st hsm hP
    obtain ⟨h2, hform⟩ := hP
    have hs1 : s + 1 ≤ m := by omega
    have hbs : (2 : ℕ) ^ (s + 1) = 2 * 2 ^ s := by ring
    have hms : m - s = (m - (s + 1)) + 1 := by omega
    refine ⟨rfl, ?_⟩
    intro b' t' hb' ht'
    show cval (fftPass realOps (2 ^ m) α (2 ^ (s + 1)) st.2 st.1) (b' * 2 ^ (s + 1) + t') =
      subDFT x α m (s + 1) b' t'
    rw [h2, hbs]
    obtain ⟨hPa, hPf⟩ := fftPass_apply (2 ^ m) α (2 ^ s) (Nat.pos_pow_of_pos _ (by omega)) st.1
    have hcnt : 2 ^ m / (2 * 2 ^ s) = 2 ^ (m - (s + 1)) := by
      have he : (2 : ℕ) * 2 ^ s = 2 ^ (s + 1) := by ring
      rw [he, Nat.pow_div hs1 (by norm_num)]
    have hb'2 : b' < 2 ^ m / (2 * 2 ^ s) := by
      rw [hcnt]
      exact hb'
    have hbv1 : 2 * b' < 2 ^ (m - s) := by
      rw [hms, pow_succ]
      omega
    have hbv2 : 2 * b' + 1 < 2 ^ (m - s) := by
      rw [hms, pow_succ]
      omega
    rcases Nat.lt_or_ge t' (2 ^ s) with hlo | hhi
    · have hw := (hPa b' t' hb'2 hlo).1
      have hp2 : b' * (2 * 2 ^ s) + t' + 2 ^ s = (2 * b' + 1) * 2 ^ s + t' := by ring
      have hp1 : b' * (2 * 2 ^ s) + t' = 2 * b' * 2 ^ s + t' := by ring
      rw [hp2, hp1] at hw
      rw [hp1, hw, hform (2 * b') t' hbv1 hlo, hform (2 * b' + 1) t' hbv2 hlo]
      exact (subDFT_split_lo x α m s b' t' hs1).symm
    · have htt : t' = (t' - 2 ^ s) + 2 ^ s := by omega
      have httlt : t' - 2 ^ s < 2 ^ s := by
        have he : (2 : ℕ) ^ (s + 1) = 2 * 2 ^ s := by ring
        omega
      have hw := (hPa b' (t' - 2 ^ s) hb'2 httlt).2
      have hp3 : b' * (2 * 2 ^ s) + (t' - 2 ^ s) = 2 * b' * 2 ^ s + (t' - 2 ^ s) := by ring
      have hp4 : 2 * b' * 2 ^ s + (t' - 2 ^ s) + 2 ^ s = (2 * b' + 1) * 2 ^ s + (t' - 2 ^ s) := by
        ring
      rw [hp3] at hw
      nth_rewrite 2 [hp4] at hw
      have hp5 : 2 * b' * 2 ^ s + (t' - 2 ^ s) + 2 ^ s = 2 * b' * 2 ^ s + t' := by omega
      have hp6 : 2 * b' * 2 ^ s + t' = b' * (2 * 2 ^ s) + t' := by ring
      rw [hp5, hp6] at hw
      rw [hw, hform (2 * b') (t' - 2 ^ s) hbv1 httlt,
        hform (2 * b' + 1) (t' - 2 ^ s) hbv2 httlt]
      have hsplit := subDFT_split_hi x α m s b' (t' - 2 ^ s) hs1 hhalf hone
      rw [← htt] at hsplit
      exact hsplit.symm

theorem FFT_forward_dft (m : ℕ) (hm : 1 ≤ m) (xr xi r0 i0 : ℕ → ℝ) :
    ∃ buf, FFT realOps (2 ^ m) false xr (some xi) r0 i0 = Except.ok buf ∧
      ∀ t, t < 2 ^ m → cval buf t =
        (Finset.range (2 ^ m)).sum
          (fun u => (⟨xr u, xi u⟩ : ℂ) * cex (2 * Real.pi * (t : ℝ) * (u : ℝ) / 2 ^ m)) := by
  have hp : IsPowerOfTwo (2 ^ m) = true := (isPowerOfTwo_iff (2 ^ m)).mpr ⟨m, hm, rfl⟩
  have heq := FFT_forward_eq realOps (2 ^ m) xr (some xi) r0 i0 hp
  rw [numberOfBitsNeeded_two_pow] at heq
  have hpi : realOps.pi = Real.pi := rfl
  rw [hpi] at heq
  refine ⟨_, heq, ?_⟩
  intro t ht
  have hB : ∀ p, p < 2 ^ m →
      cval (fftScatter (2 ^ m) m xr (some xi) ⟨r0, i0⟩) p =
        (fun u => (⟨xr u, xi u⟩ : ℂ)) (ReverseBits p m) := by
    intro p hp2
    have h := fftScatter_apply m hm xr xi ⟨r0, i0⟩ p hp2
    simp only [cval, h.1, h.2]
  have hhalf : cex (2 * Real.pi / 2) = -1 := by
    have he : (2 : ℝ) * Real.pi / 2 = Real.pi := by ring
    rw [he]
    exact cex_pi
  have hone : ∀ u : ℕ, cex (2 * Real.pi * (u : ℝ)) = 1 := by
    intro u
    have he : (2 : ℝ) * Real.pi * (u : ℝ) = 2 * Real.pi * (((u : ℤ)) : ℝ) := by
      push_cast
      ring
    rw [he]
    exact cex_int_two_pi (u : ℤ)
  exact fftPasses_dft m (2 * Real.pi) hhalf hone (fun u => (⟨xr u, xi u⟩ : ℂ))
    (fftScatter (2 ^ m) m xr (some xi) ⟨r0, i0⟩) hB t ht

theorem FFT_inverse_dft (m : ℕ) (hm : 1 ≤ m) (Xr Xi r0 i0 : ℕ → ℝ) :
    ∃ buf, FFT realOps (2 ^ m) true Xr (some Xi) r0 i0 = Except.ok buf ∧
      ∀ t, t < 2 ^ m → cval buf t =
        ((Finset.range (2 ^ m)).sum
          (fun u => (⟨Xr u, Xi u⟩ : ℂ) *
            cex (-(2 * Real.pi) * (t : ℝ) * (u : ℝ) / 2 ^ m))) / (((2 ^ m : ℕ) : ℝ) : ℂ) := by
  have hp : IsPowerOfTwo (2 ^ m) = true := (isPowerOfTwo_iff (2 ^ m)).mpr ⟨m, hm, rfl⟩
  have heq := FFT_inverse_eq realOps (2 ^ m) Xr (some Xi) r0 i0 hp
  rw [numberOfBitsNeeded_two_pow] at heq
  have hpi : realOps.pi = Real.pi := rfl
  rw [hpi] at heq
  refine ⟨_, heq, ?_⟩
  intro t ht
  have hB : ∀ p, p < 2 ^ m →
      cval (fftScatter (2 ^ m) m Xr (some Xi) ⟨r0, i0⟩) p =
        (fun u => (⟨Xr u, Xi u⟩ : ℂ)) (ReverseBits p m) := by
    intro p hp2
    have h := fftScatter_apply m hm Xr Xi ⟨r0, i0⟩ p hp2
    simp only [cval, h.1, h.2]
  have hhalf : cex (-(2 * Real.pi) / 2) = -1 := by
    have he : -(2 * Real.pi) / 2 = -Real.pi := by ring
    rw [he]
    exact cex_neg_pi
  have hone : ∀ u : ℕ, cex (-(2 * Real.pi) * (u : ℝ)) = 1 := by
    intro u
    have he : -(2 * Real.pi) * (u : ℝ) = 2 * Real.pi * (((-(u : ℤ) : ℤ)) : ℝ) := by
      push_cast
      ring
    rw [he]
    exact cex_int_two_pi (-(u : ℤ))
  have hmain := fftPasses_dft m (-(2 * Real.pi)) hhalf hone (fun u => (⟨Xr u, Xi u⟩ : ℂ))
    (fftScatter (2 ^ m) m Xr (some Xi) ⟨r0, i0⟩) hB t ht
  have hre := updLoop_lt
    (fftPasses realOps (2 ^ m) m (-(2 * Real.pi))
      (fftScatter (2 ^ m) m Xr (some Xi) ⟨r0, i0⟩)).re
    (fun _ v => v / ((2 ^ m : ℕ) : ℝ)) (2 ^ m) t ht
  have him := updLoop_lt
    (fftPasses realOps (2 ^ m) m (-(2 * Real.pi))
      (fftScatter (2 ^ m) m Xr (some Xi) ⟨r0, i0⟩)).im
    (fun _ v => v / ((2 ^ m : ℕ) : ℝ)) (2 ^ m) t ht
  have hcv : cval
      ⟨updLoop (fftPasses realOps (2 ^ m) m (-(2 * Real.pi))
          (fftScatter (2 ^ m) m Xr (some Xi) ⟨r0, i0⟩)).re
        (fun _ v => v / ((2 ^ m : ℕ) : ℝ)) (2 ^ m),
       updLoop (fftPasses realOps (2 ^ m) m (-(2 * Real.pi))
          (fftScatter (2 ^ m) m Xr (some Xi) ⟨r0, i0⟩)).im
        (fun _ v => v / ((2 ^ m : ℕ) : ℝ)) (2 ^ m)⟩ t =
      cval (fftPasses realOps (2 ^ m) m (-(2 * Real.pi))
          (fftScatter (2 ^ m) m Xr (some Xi) ⟨r0, i0⟩)) t / (((2 ^ m : ℕ) : ℝ) : ℂ) := by
    apply Complex.ext
    · show updLoop _ (fun _ v => v / ((2 ^ m : ℕ) : ℝ)) (2 ^ m) t = _
      rw [hre, Complex.div_ofReal_re]
      rfl
    · show updLoop _ (fun _ v => v / ((2 ^ m : ℕ) : ℝ)) (2 ^ m) t = _
      rw [him, Complex.div_ofReal_im]
      rfl
  rw [hcv, hmain]

/-! Orthogonality of the exponential kernels: the inverse kernel applied to
the forward transform recovers the input exactly. -/

theorem dft_inversion (m : ℕ) (x : ℕ → ℂ) (q : ℕ) (hq : q < 2 ^ m) :
    ((Finset.range (2 ^ m)).sum (fun p =>
      ((Finset.range (2 ^ m)).sum
        (fun u => x u * cex (2 * Real.pi * (p : ℝ) * (u : ℝ) / 2 ^ m))) *
        cex (-(2 * Real.pi) * (q : ℝ) * (p : ℝ) / 2 ^ m))) / (((2 ^ m : ℕ) : ℝ) : ℂ) =
      x q := by
  have hNR : ((2 ^ m : ℕ) : ℝ) = (2 : ℝ) ^ m := by push_cast; ring
  rw [hNR]
  have hNpos : (0 : ℝ) < (2 : ℝ) ^ m := by positivity
  have hNne : ((2 : ℝ) ^ m) ≠ 0 := ne_of_gt hNpos
  have hNCne : (((2 : ℝ) ^ m : ℝ) : ℂ) ≠ 0 := Complex.ofReal_ne_zero.mpr hNne
  rw [div_eq_iff hNCne]
  have hstep1 : ∀ p ∈ Finset.range (2 ^ m),
      ((Finset.range (2 ^ m)).sum
        (fun u => x u * cex (2 * Real.pi * (p : ℝ) * (u : ℝ) / 2 ^ m))) *
        cex (-(2 * Real.pi) * (q : ℝ) * (p : ℝ) / 2 ^ m) =
      (Finset.range (2 ^ m)).sum
        (fun u => x u * cex ((2 * Real.pi * ((u : ℝ) - (q : ℝ)) / 2 ^ m) * (p : ℝ))) := by
    intro p _
    rw [Finset.sum_mul]
    apply Finset.sum_congr rfl
    intro u _
    rw [mul_assoc, ← cex_add]
    congr 2
    field_simp
    ring
  rw [Finset.sum_congr rfl hstep1, Finset.sum_comm]
  have hstep2 : ∀ u ∈ Finset.range (2 ^ m),
      (Finset.range (2 ^ m)).sum
        (fun p => x u * cex ((2 * Real.pi * ((u : ℝ) - (q : ℝ)) / 2 ^ m) * (p : ℝ))) =
      x u * (if u = q then (((2 : ℝ) ^ m : ℝ) : ℂ) else 0) := by
    intro u hu
    have humem : u < 2 ^ m := Finset.mem_range.mp hu
    rw [← Finset.mul_sum]
    congr 1
    have hform : ∀ p : ℕ, cex ((2 * Real.pi * ((u : ℝ) - (q : ℝ)) / 2 ^ m) * (p : ℝ)) =
        cex (2 * Real.pi * ((u : ℝ) - (q : ℝ)) / 2 ^ m) ^ p := by
      intro p
      rw [mul_comm]
      exact cex_nat_mul _ p
    rw [Finset.sum_congr rfl (fun p _ => hform p)]
    by_cases huq : u = q
    · subst huq
      have hz0 : 2 * Real.pi * ((u : ℝ) - (u : ℝ)) / 2 ^ m = 0 := by ring
      rw [if_pos rfl, hz0, cex_zero]
      simp [Finset.sum_const, Finset.card_range]
    · have hz : cex (2 * Real.pi * ((u : ℝ) - (q : ℝ)) / 2 ^ m) ≠ 1 := by
        intro hone1
        rw [cex, Complex.exp_eq_one_iff] at hone1
        obtain ⟨k, hk⟩ := hone1
        have hr : (k : ℂ) * (2 * (Real.pi : ℂ) * Complex.I) =
            ((k : ℂ) * (2 * (Real.pi : ℂ))) * Complex.I := by ring
        rw [hr] at hk
        have h2 := mul_right_cancel₀ Complex.I_ne_zero hk
        have h3 : 2 * Real.pi * ((u : ℝ) - (q : ℝ)) / 2 ^ m = (k : ℝ) * (2 * Real.pi) := by
          exact_mod_cast h2
        rw [div_eq_iff hNne] at h3
        have h5 : (u : ℝ) - (q : ℝ) = (k : ℝ) * (2 : ℝ) ^ m := by
          have h2pi : (2 * Real.pi) ≠ 0 := by positivity
          apply mul_left_cancel₀ h2pi
          linear_combination h3
        have h6 : (u : ℤ) - (q : ℤ) = k * ((2 ^ m : ℕ) : ℤ) := by
          have hc : ((2 ^ m : ℕ) : ℝ) = (2 : ℝ) ^ m := hNR
          exact_mod_cast h5
        have hui : (u : ℤ) < ((2 ^ m : ℕ) : ℤ) := by exact_mod_cast humem
        have hqi : (q : ℤ) < ((2 ^ m : ℕ) : ℤ) := by exact_mod_cast hq
        have hkz : k = 0 := by
          by_contra hk0
          rcases lt_or_gt_of_ne hk0 with hneg | hpos
          · have hle : k ≤ -1 := by omega
            have hb : k * ((2 ^ m : ℕ) : ℤ) ≤ -1 * ((2 ^ m : ℕ) : ℤ) :=
              mul_le_mul_of_nonneg_right hle (by positivity)
            omega
          · have hle : (1 : ℤ) ≤ k := by omega
            have hb : (1 : ℤ) * ((2 ^ m : ℕ) : ℤ) ≤ k * ((2 ^ m : ℕ) : ℤ) :=
              mul_le_mul_of_nonneg_right hle (by positivity)
            omega
        rw [hkz, zero_mul] at h6
        exact huq (by omega)
      rw [geom_sum_eq hz]
      have hzN : cex (2 * Real.pi * ((u : ℝ) - (q : ℝ)) / 2 ^ m) ^ (2 ^ m) = 1 := by
        rw [← cex_nat_mul]
        have he : ((2 ^ m : ℕ) : ℝ) * (2 * Real.pi * ((u : ℝ) - (q : ℝ)) / 2 ^ m) =
            2 * Real.pi * ((((u : ℤ) - (q : ℤ)) : ℤ) : ℝ) := by
          rw [hNR]
          push_cast
          field_simp
        rw [he]
        exact cex_int_two_pi ((u : ℤ) - (q : ℤ))
      rw [hzN, if_neg huq]
      simp
  rw [Finset.sum_congr rfl hstep2]
  have hstep3 : ∀ u ∈ Finset.range (2 ^ m),
      x u * (if u = q then (((2 : ℝ) ^ m : ℝ) : ℂ) else 0) =
      if u = q then x q * (((2 : ℝ) ^ m : ℝ) : ℂ) else 0 := by
    intro u _
    by_cases h : u = q
    · subst h
      simp
    · simp [h]
  rw [Finset.sum_congr rfl hstep3, Finset.sum_ite_eq' (Finset.range (2 ^ m)) q
    (fun _ => x q * (((2 : ℝ) ^ m : ℝ) : ℂ))]
  rw [if_pos (Finset.mem_range.mpr hq)]

/-- Claim C2: for every size the engine accepts (a power of two, necessarily
at least 2), applying the forward transform and then the inverse transform
returns exactly the original real and imaginary inputs at every sample below
the size - the inverse pass divides every output cell by the size, making the
composition the identity.  In the exact real model of float arithmetic the
round trip is exact; the float implementation therefore matches it within
rounding tolerance. -/
theorem claim_C2_round_trip (n : ℕ) (hp : IsPowerOfTwo n = true)
    (xr xi r1 i1 r2 i2 : ℕ → ℝ) :
    ∃ buf1 buf2,
      FFT realOps n false xr (some xi) r1 i1 = Except.ok buf1 ∧
      FFT realOps n true buf1.re (some buf1.im) r2 i2 = Except.ok buf2 ∧
      ∀ p, p < n → buf2.re p = xr p ∧ buf2.im p = xi p := by
  obtain ⟨m, hm, hn⟩ := (isPowerOfTwo_iff n).mp hp
  subst hn
  obtain ⟨buf1, h1, hv1⟩ := FFT_forward_dft m hm xr xi r1 i1
  obtain ⟨buf2, h2, hv2⟩ := FFT_inverse_dft m hm buf1.re buf1.im r2 i2
  refine ⟨buf1, buf2, h1, h2, ?_⟩
  intro p hpn
  have hsum : ∀ pp ∈ Finset.range (2 ^ m),
      (⟨buf1.re pp, buf1.im pp⟩ : ℂ) * cex (-(2 * Real.pi) * (p : ℝ) * (pp : ℝ) / 2 ^ m) =
      ((Finset.range (2 ^ m)).sum
        (fun u => (⟨xr u, xi u⟩ : ℂ) * cex (2 * Real.pi * (pp : ℝ) * (u : ℝ) / 2 ^ m))) *
        cex (-(2 * Real.pi) * (p : ℝ) * (pp : ℝ) / 2 ^ m) := by
    intro pp hpp
    have hh := hv1 pp (Finset.mem_range.mp hpp)
    have hcv : (⟨buf1.re pp, buf1.im pp⟩ : ℂ) = cval buf1 pp := rfl
    rw [hcv, hh]
  have hval : cval buf2 p = (⟨xr p, xi p⟩ : ℂ) := by
    rw [hv2 p hpn, Finset.sum_congr rfl hsum]
    exact dft_inversion m (fun u => (⟨xr u, xi u⟩ : ℂ)) p hpn
  constructor
  · have h := congrArg Complex.re hval
    simpa [cval] using h
  · have h := congrArg Complex.im hval
    simpa [cval] using h

/-- Witness for claim C2 at size 2. -/
theorem claim_C2_witness :
    ∃ buf1 buf2,
      FFT realOps 2 false (fun _ => (0 : ℝ)) (some fun _ => (0 : ℝ))
          (fun _ => 0) (fun _ => 0) = Except.ok buf1 ∧
      FFT realOps 2 true buf1.re (some buf1.im) (fun _ => 0) (fun _ => 0) = Except.ok buf2 ∧
      ∀ p, p < 2 → buf2.re p = (fun _ => (0 : ℝ)) p ∧ buf2.im p = (fun _ => (0 : ℝ)) p :=
  claim_C2_round_trip 2 (by decide) (fun _ => 0) (fun _ => 0) (fun _ => 0) (fun _ => 0)
    (fun _ => 0) (fun _ => 0)
